import Mathlib

/-!
Shallow embedding, in Lean 4, of the refinement-type checking core of the
`flux` repository, together with theorems settling the specification claims
about it.  Each data type and operation is translated from the corresponding
Rust source file; definitions for source files of the repository that are not
present (only their callers are) are marked `Modelled from the spec:` in their
doc comment.  Machine integers that appear only as opaque identifiers (names,
local indices, field indices, def-ids) are modelled as `Nat`.
-/

namespace ty

/-- Free variable names (the `Name` newtype index of `flux-middle/src/ty`). -/
abbrev Name := Nat

/-- De Bruijn bound variable: a binder-depth index paired with a slot index
(`BoundVar` in the source). -/
structure BoundVar where
  debruijn : Nat
  index : Nat
  deriving DecidableEq

/-- Existential variable: a metavariable id plus its owning context id
(`EVar` in `ty/evars.rs`). -/
structure EVar where
  cx : Nat
  id : Nat
  deriving DecidableEq

/-- Sign of an integer literal (`Sign` in `flux-fixpoint`). -/
inductive Sign where
  | positive
  | negative
  deriving DecidableEq

/-- Literal constants (`Constant` in `flux-fixpoint`): booleans and
sign-magnitude integers. -/
inductive Constant where
  | boolC (b : Bool)
  | intC (s : Sign) (n : Nat)
  deriving DecidableEq

/-- Binary operators of refinement expressions (`BinOp`). -/
inductive BinOp where
  | iff | imp | or | and | eq | ne | gt | ge | lt | le
  | add | sub | mul | div | mod
  deriving DecidableEq

/-- Unary operators of refinement expressions (`UnOp`). -/
inductive UnOp where
  | not
  | neg
  deriving DecidableEq

/-- Reference kind for `ref` types (shared or mutable). -/
inductive RefKind where
  | shr
  | mut
  deriving DecidableEq

/-- Sorts of refinement indices.  Modelled from the spec: the `ty` module's
`Sort` type is not among the provided sources; the spec's data model uses
integer, boolean and location sorts. -/
inductive Srt where
  | int
  | bool
  | loc
  deriving DecidableEq

/-- Algebraic datatype definition handle.  Modelled from the spec: the core
expects "a sort-lookup capability for any referenced algebraic datatype (given
a datatype identity, return its declared index sorts)", so an `AdtDef` is an
identity together with its declared index sorts. -/
structure AdtDef where
  defId : Nat
  sorts : List Srt
  deriving DecidableEq

/-- Root of a path: a local, free, or bound variable (`Loc` in the source). -/
inductive Loc where
  | localVar (l : Nat)
  | free (n : Name)
  | bound (b : BoundVar)
  deriving DecidableEq

/-- A storage path: a root location plus an ordered list of field projections
(`Path` in the source). -/
structure Path where
  loc : Loc
  projection : List Nat
  deriving DecidableEq

mutual
/-- Refinement expressions of the `ty` layer, with exactly the variants
matched by `impl TypeFoldable for Expr` in `flux-middle/src/ty/fold.rs`:
free variable, bound variable, existential variable, constant def-id, local,
literal constant, binary and unary operator application, tuple projection,
tuple, and path projection. -/
inductive Expr where
  | fvar (n : Name)
  | bvar (b : BoundVar)
  | evar (ev : EVar)
  | constDefId (d : Nat)
  | localVar (l : Nat)
  | constant (c : Constant)
  | binaryOp (op : BinOp) (e1 e2 : Expr)
  | unaryOp (op : UnOp) (e : Expr)
  | tupleProj (e : Expr) (i : Nat)
  | tuple (es : ExprList)
  | pathProj (e : Expr) (f : Nat)

/-- A list of expressions (the interned `List<Expr>` of the source, as an
explicit cons list so that all recursion is structural). -/
inductive ExprList where
  | nil
  | cons (head : Expr) (tail : ExprList)
end

/-- K-variable application: an unknown-predicate id applied to an argument
list and carrying a scope list (`KVar { kvid, args, scope }`). -/
structure KVar where
  kvid : Nat
  args : ExprList
  scope : ExprList

/-- Predicates: a k-variable application, an expression, or an inference hole
(`Pred::{Kvar, Expr, Hole}`). -/
inductive Pred where
  | kvar (k : KVar)
  | expr (e : Expr)
  | hole

/-- A value under a list of binders with their sorts (`Binders<T>` in the
source, here at its `Pred` instantiation, the one refinement claims use). -/
structure Binders where
  params : List Srt
  value : Pred

/-- A refinement index: an expression plus a binder flag (`Index`). -/
structure Index where
  expr : Expr
  is_binder : Bool

mutual
/-- Base types: signed/unsigned integers, booleans, and algebraic datatypes
instantiated with type arguments (`BaseTy`). -/
inductive BaseTy where
  | int (width : Nat)
  | uint (width : Nat)
  | bool
  | adt (adt_def : AdtDef) (substs : TyList)

/-- Types of the `ty` layer, with exactly the variants matched by
`impl TypeFoldable for Ty` in `flux-middle/src/ty/fold.rs`. -/
inductive Ty where
  | indexed (bty : BaseTy) (indices : List Index)
  | exists_ (bty : BaseTy) (pred : Binders)
  | tuple (tys : TyList)
  | ptr (path : Path)
  | boxPtr (loc : Name) (alloc : Ty)
  | ref (rk : RefKind) (ty : Ty)
  | constr (pred : Pred) (ty : Ty)
  | float (fty : Nat)
  | uninit
  | param (index : Nat)
  | never
  | discr (adt : Nat) (place : Nat)

/-- A list of types (the interned `List<Ty>` of the source, as an explicit
cons list so that all recursion is structural). -/
inductive TyList where
  | nil
  | cons (head : Ty) (tail : TyList)
end

/-- A constraint from a function signature: a path obligated to satisfy a
type, or an atomic predicate expression (`Constraint::{Type, Pred}`). -/
inductive Constraint where
  | type (path : Path) (ty : Ty)
  | pred (e : Expr)

/-- A refined function signature: requires clauses, argument types, return
type, and ensures clauses (`FnSig`). -/
structure FnSig where
  requires : List Constraint
  args : List Ty
  ret : Ty
  ensures : List Constraint

/-- Turns a root location into the corresponding variable expression.
Modelled from the spec: `Loc::to_expr` of the `ty` layer is not among
the provided sources; a root is "a root variable (local, free, or bound)". -/
def Loc.to_expr : Loc → Expr
  | .localVar l => Expr.localVar l
  | .free n => Expr.fvar n
  | .bound b => Expr.bvar b

/-- Turns a path into the nested projection expression it denotes, applying
the first projection innermost.  Modelled from the spec: `Path::to_expr` of
the `ty` layer is not among the provided sources; a path is "a root variable
plus an ordered list of field projections". -/
def Path.to_expr (p : Path) : Expr :=
  p.projection.foldl (fun e f => Expr.pathProj e f) p.loc.to_expr

/-- Accumulator loop of `Expr::to_path`: peel projections off an expression,
collecting the projection list. -/
def Expr.to_path_go : Expr → List Nat → Option Path
  | .pathProj e f, proj => Expr.to_path_go e (f :: proj)
  | .fvar n, proj => some ⟨Loc.free n, proj⟩
  | .bvar b, proj => some ⟨Loc.bound b, proj⟩
  | .localVar l, proj => some ⟨Loc.localVar l, proj⟩
  | _, _ => none

/-- Reinterprets an expression as a path, succeeding exactly on projection
chains over a variable root.  Modelled from the spec: `Expr::to_path` of the
`ty` layer is not among the provided sources; reinterpretation helpers
"attempt to reinterpret an expression as a storage reference, succeeding only
for the free-variable/bound-variable/local-variable/projection-chain shapes".
-/
def Expr.to_path (e : Expr) : Option Path :=
  Expr.to_path_go e []

/-- Reinterprets an expression as a free-variable name.  Modelled from the
spec: `Expr::to_name` of the `ty` layer is not among the provided sources. -/
def Expr.to_name : Expr → Option Name
  | .fvar n => some n
  | _ => none

mutual
/-- Free-variable collection over expressions: the names inserted by the
`CollectFreeVars` visitor of `TypeFoldable::fvars` when it runs over an
expression, in visit order, following `Expr::super_visit_with`. -/
def Expr.fvars : Expr → List Name
  | .fvar n => [n]
  | .binaryOp _ e1 e2 => e1.fvars ++ e2.fvars
  | .unaryOp _ e => e.fvars
  | .tupleProj e _ => e.fvars
  | .tuple es => es.fvars
  | .pathProj e _ => e.fvars
  | .constant _ => []
  | .bvar _ => []
  | .localVar _ => []
  | .constDefId _ => []
  | .evar _ => []

/-- Free-variable collection over an expression list (each element is
visited in order). -/
def ExprList.fvars : ExprList → List Name
  | .nil => []
  | .cons e tl => e.fvars ++ tl.fvars
end

/-- Free-variable collection over a k-variable application, following
`KVar::super_visit_with`: only the argument list is visited. -/
def KVar.fvars (k : KVar) : List Name :=
  k.args.fvars

/-- Free-variable collection over predicates (`Pred::super_visit_with`). -/
def Pred.fvars : Pred → List Name
  | .kvar k => k.fvars
  | .expr e => e.fvars
  | .hole => []

/-- Free-variable collection under binders (`Binders::super_visit_with`
visits only the bound value). -/
def Binders.fvars (b : Binders) : List Name :=
  b.value.fvars

/-- Free-variable collection over an index (`Index::super_visit_with`). -/
def Index.fvars (i : Index) : List Name :=
  i.expr.fvars

mutual
/-- Free-variable collection over base types (`BaseTy::super_visit_with`). -/
def BaseTy.fvars : BaseTy → List Name
  | .adt _ substs => substs.fvars
  | .int _ => []
  | .uint _ => []
  | .bool => []

/-- Free-variable collection over types (`Ty::super_visit_with`). -/
def Ty.fvars : Ty → List Name
  | .indexed bty indices => bty.fvars ++ (indices.map Index.fvars).flatten
  | .exists_ bty pred => bty.fvars ++ pred.fvars
  | .tuple tys => tys.fvars
  | .ref _ t => t.fvars
  | .ptr path => path.to_expr.fvars
  | .boxPtr loc t => (Expr.fvar loc).fvars ++ t.fvars
  | .constr pred t => pred.fvars ++ t.fvars
  | .param _ => []
  | .never => []
  | .discr _ _ => []
  | .float _ => []
  | .uninit => []

/-- Free-variable collection over a type list. -/
def TyList.fvars : TyList → List Name
  | .nil => []
  | .cons t tl => t.fvars ++ tl.fvars
end

/-- Free-variable collection over constraints
(`Constraint::super_visit_with`). -/
def Constraint.fvars : Constraint → List Name
  | .type path t => path.to_expr.fvars ++ t.fvars
  | .pred e => e.fvars

/-- Free-variable collection over function signatures
(`FnSig::super_visit_with` visits requires, args, ensures, then ret). -/
def FnSig.fvars (s : FnSig) : List Name :=
  (s.requires.map Constraint.fvars).flatten ++ (s.args.map Ty.fvars).flatten
    ++ (s.ensures.map Constraint.fvars).flatten ++ s.ret.fvars

mutual
/-- Syntactic free-variable occurrences of an expression, following the
claim's words: every free-variable occurrence anywhere in the term.  The
`sc` flag records whether occurrences inside k-variable scope lists count
(`true` for the claim as stated, `false` for the amended claim). -/
def Expr.specOcc : Bool → Expr → List Name
  | _, .fvar n => [n]
  | sc, .binaryOp _ e1 e2 => Expr.specOcc sc e1 ++ Expr.specOcc sc e2
  | sc, .unaryOp _ e => Expr.specOcc sc e
  | sc, .tupleProj e _ => Expr.specOcc sc e
  | sc, .tuple es => ExprList.specOcc sc es
  | sc, .pathProj e _ => Expr.specOcc sc e
  | _, .constant _ => []
  | _, .bvar _ => []
  | _, .localVar _ => []
  | _, .constDefId _ => []
  | _, .evar _ => []

/-- Syntactic free-variable occurrences of an expression list. -/
def ExprList.specOcc : Bool → ExprList → List Name
  | _, .nil => []
  | sc, .cons e tl => Expr.specOcc sc e ++ ExprList.specOcc sc tl
end

/-- Syntactic free-variable occurrences of a path: its root name, when the
root is a free variable. -/
def Path.specOcc (p : Path) : List Name :=
  match p.loc with
  | .free n => [n]
  | .localVar _ => []
  | .bound _ => []

/-- Syntactic free-variable occurrences of a k-variable application: its
argument list and, when `sc` is set, also its scope list — the claim counts
occurrences "inside a k-variable's argument list and its scope list". -/
def KVar.specOcc (sc : Bool) (k : KVar) : List Name :=
  ExprList.specOcc sc k.args ++ (if sc then ExprList.specOcc sc k.scope else [])

/-- Syntactic free-variable occurrences of a predicate. -/
def Pred.specOcc : Bool → Pred → List Name
  | sc, .kvar k => k.specOcc sc
  | sc, .expr e => e.specOcc sc
  | _, .hole => []

mutual
/-- Syntactic free-variable occurrences of a base type. -/
def BaseTy.specOcc : Bool → BaseTy → List Name
  | sc, .adt _ substs => TyList.specOcc sc substs
  | _, .int _ => []
  | _, .uint _ => []
  | _, .bool => []

/-- Syntactic free-variable occurrences of a type. -/
def Ty.specOcc : Bool → Ty → List Name
  | sc, .indexed bty indices =>
      BaseTy.specOcc sc bty ++ (indices.map (fun i => Expr.specOcc sc i.expr)).flatten
  | sc, .exists_ bty pred => BaseTy.specOcc sc bty ++ Pred.specOcc sc pred.value
  | sc, .tuple tys => TyList.specOcc sc tys
  | sc, .ref _ t => Ty.specOcc sc t
  | _, .ptr path => path.specOcc
  | sc, .boxPtr loc t => [loc] ++ Ty.specOcc sc t
  | sc, .constr pred t => Pred.specOcc sc pred ++ Ty.specOcc sc t
  | _, .param _ => []
  | _, .never => []
  | _, .discr _ _ => []
  | _, .float _ => []
  | _, .uninit => []

/-- Syntactic free-variable occurrences of a type list. -/
def TyList.specOcc : Bool → TyList → List Name
  | _, .nil => []
  | sc, .cons t tl => Ty.specOcc sc t ++ TyList.specOcc sc tl
end

/-- Syntactic free-variable occurrences of a constraint. -/
def Constraint.specOcc : Bool → Constraint → List Name
  | sc, .type path t => path.specOcc ++ Ty.specOcc sc t
  | sc, .pred e => e.specOcc sc

/-- Syntactic free-variable occurrences of a function signature. -/
def FnSig.specOcc (sc : Bool) (s : FnSig) : List Name :=
  (s.requires.map (Constraint.specOcc sc)).flatten
    ++ (s.args.map (Ty.specOcc sc)).flatten
    ++ (s.ensures.map (Constraint.specOcc sc)).flatten ++ s.ret.specOcc sc

/-- Declared index sorts of a base type.  Modelled from the spec: `BaseTy::sorts`
is not among the provided sources; "every refined type carries exactly the
index arity implied by its base type's declared sort list", integers having an
integer index sort, booleans a boolean one, and datatypes their declared
list. -/
def BaseTy.sorts : BaseTy → List Srt
  | .int _ => [.int]
  | .uint _ => [.int]
  | .bool => [.bool]
  | .adt d _ => d.sorts

/-- The concrete folders claims are about: the folder that overrides no hook,
and the `WithHoles` folder of `TypeFoldable::with_holes` (which overrides
`fold_ty` only). -/
inductive Folder where
  | defaultFolder
  | withHoles
  deriving DecidableEq

mutual
/-- Fold of an expression (`Expr::super_fold_with`).  Child terms are folded
through `fold_with`, which dispatches to the folder's `fold_expr` hook; both
folders under consideration leave that hook at its default, which is this
function, so the dispatch is inlined. -/
def Expr.fold_with (F : Folder) : Expr → Expr
  | .fvar n => .fvar n
  | .bvar b => .bvar b
  | .evar ev => .evar ev
  | .constDefId d => .constDefId d
  | .localVar l => .localVar l
  | .constant c => .constant c
  | .binaryOp op e1 e2 => .binaryOp op (e1.fold_with F) (e2.fold_with F)
  | .unaryOp op e => .unaryOp op (e.fold_with F)
  | .tupleProj e i => .tupleProj (e.fold_with F) i
  | .tuple es => .tuple (es.fold_with F)
  | .pathProj e f => .pathProj (e.fold_with F) f

/-- Fold of every expression of a list, in order. -/
def ExprList.fold_with (F : Folder) : ExprList → ExprList
  | .nil => .nil
  | .cons e tl => .cons (e.fold_with F) (tl.fold_with F)
end

/-- Fold of a k-variable application (`KVar::super_fold_with`): folds the
argument list and the scope list. -/
def KVar.fold_with (F : Folder) (k : KVar) : KVar :=
  ⟨k.kvid, k.args.fold_with F, k.scope.fold_with F⟩

/-- Fold of a predicate (`Pred::super_fold_with`). -/
def Pred.fold_with (F : Folder) : Pred → Pred
  | .kvar k => .kvar (k.fold_with F)
  | .expr e => .expr (e.fold_with F)
  | .hole => .hole

/-- Fold under binders (`Binders::super_fold_with`, reached through the
default `fold_binders` hook, which neither folder overrides): folds the bound
value and keeps the binder sorts. -/
def Binders.fold_with (F : Folder) (b : Binders) : Binders :=
  ⟨b.params, b.value.fold_with F⟩

/-- Fold of an index (`Index::super_fold_with`). -/
def Index.fold_with (F : Folder) (i : Index) : Index :=
  ⟨i.expr.fold_with F, i.is_binder⟩

mutual
/-- Fold dispatch for types: `ty.fold_with(folder)` calls the folder's
`fold_ty` hook.  The `WithHoles` folder turns each indexed and each
existential type into an existential type with a hole over the base type's
sorts; every other case (and the whole of the default folder) proceeds by
`Ty::super_fold_with`.  A `none` result models a panic inside the fold (the
`expect` calls on invalid paths or names). -/
def Ty.fold_with : Folder → Ty → Option Ty
  | .withHoles, .indexed bty _ =>
      (BaseTy.super_fold .withHoles bty).map (fun b => Ty.exists_ b ⟨bty.sorts, Pred.hole⟩)
  | .withHoles, .exists_ bty _ =>
      (BaseTy.super_fold .withHoles bty).map (fun b => Ty.exists_ b ⟨bty.sorts, Pred.hole⟩)
  | F, t => Ty.super_fold F t

/-- Structural fold of a type (`Ty::super_fold_with`). -/
def Ty.super_fold : Folder → Ty → Option Ty
  | F, .indexed bty indices =>
      (BaseTy.super_fold F bty).map
        (fun b => Ty.indexed b (indices.map (Index.fold_with F)))
  | F, .exists_ bty pred =>
      (BaseTy.super_fold F bty).map (fun b => Ty.exists_ b (pred.fold_with F))
  | F, .tuple tys => (TyList.fold_with F tys).map Ty.tuple
  | F, .ptr path =>
      match (path.to_expr.fold_with F).to_path with
      | some p => some (Ty.ptr p)
      | none => none
  | F, .boxPtr loc alloc =>
      match ((Expr.fvar loc).fold_with F).to_name with
      | some n => (Ty.fold_with F alloc).map (fun a => Ty.boxPtr n a)
      | none => none
  | F, .ref rk t => (Ty.fold_with F t).map (fun t' => Ty.ref rk t')
  | F, .constr pred t => (Ty.fold_with F t).map (fun t' => Ty.constr (pred.fold_with F) t')
  | _, .float fty => some (.float fty)
  | _, .uninit => some .uninit
  | _, .param i => some (.param i)
  | _, .never => some .never
  | _, .discr a p => some (.discr a p)

/-- Structural fold of a base type (`BaseTy::super_fold_with`). -/
def BaseTy.super_fold : Folder → BaseTy → Option BaseTy
  | F, .adt d substs => (TyList.fold_with F substs).map (fun ts => BaseTy.adt d ts)
  | _, .int w => some (.int w)
  | _, .uint w => some (.uint w)
  | _, .bool => some .bool

/-- Fold of every type of a list, in order. -/
def TyList.fold_with : Folder → TyList → Option TyList
  | _, .nil => some .nil
  | F, .cons t tl =>
      (Ty.fold_with F t).bind (fun t' => (TyList.fold_with F tl).map (fun tl' => .cons t' tl'))
end

/-- Fold of a constraint (`Constraint::super_fold_with`): a type obligation
re-reads the folded path expression back as a path, panicking (modelled as
`none`) when the folder produced an invalid path. -/
def Constraint.fold_with (F : Folder) : Constraint → Option Constraint
  | .type path t =>
      match (path.to_expr.fold_with F).to_path with
      | some p => (Ty.fold_with F t).map (fun t' => Constraint.type p t')
      | none => none
  | .pred e => some (.pred (e.fold_with F))

/-- Maps a fallible fold over a list, failing when any element fails (the
`collect` of the iterator maps of the source, with panic propagation). -/
def mapFold {α β : Type} (f : α → Option β) : List α → Option (List β)
  | [] => some []
  | x :: l => (f x).bind fun y => (mapFold f l).map fun l' => y :: l'

/-- Fold of a function signature (`FnSig::super_fold_with`): folds requires
clauses, argument types, the return type and ensures clauses. -/
def FnSig.fold_with (F : Folder) (s : FnSig) : Option FnSig :=
  (mapFold (Constraint.fold_with F) s.requires).bind fun requires =>
    (mapFold (Ty.fold_with F) s.args).bind fun args =>
      (mapFold (Constraint.fold_with F) s.ensures).bind fun ensures =>
        (Ty.fold_with F s.ret).map fun ret => FnSig.mk requires args ret ensures

/-- The add-holes operation `TypeFoldable::with_holes` at type level: runs the
`WithHoles` folder over the type. -/
def Ty.with_holes (t : Ty) : Option Ty :=
  Ty.fold_with .withHoles t

mutual
/-- Add-holes on base types as the claim describes it: recurse into the type
arguments of a datatype, leave everything else unchanged. -/
def BaseTy.addHolesSpec : BaseTy → BaseTy
  | .adt d substs => .adt d (TyList.addHolesSpec substs)
  | .int w => .int w
  | .uint w => .uint w
  | .bool => .bool

/-- Add-holes on types as the claim describes it: every concretely-indexed
type and every existential (already-refined) type becomes an existential type
whose refinement is a hole, discarding the previous index expressions or
refinement predicate; every other constructor is kept, recursing into its
children. -/
def Ty.addHolesSpec : Ty → Ty
  | .indexed bty _ => .exists_ (BaseTy.addHolesSpec bty) ⟨bty.sorts, .hole⟩
  | .exists_ bty _ => .exists_ (BaseTy.addHolesSpec bty) ⟨bty.sorts, .hole⟩
  | .tuple tys => .tuple (TyList.addHolesSpec tys)
  | .ptr path => .ptr path
  | .boxPtr loc alloc => .boxPtr loc (Ty.addHolesSpec alloc)
  | .ref rk t => .ref rk (Ty.addHolesSpec t)
  | .constr pred t => .constr pred (Ty.addHolesSpec t)
  | .float fty => .float fty
  | .uninit => .uninit
  | .param i => .param i
  | .never => .never
  | .discr a p => .discr a p

/-- Add-holes on a type list, element by element. -/
def TyList.addHolesSpec : TyList → TyList
  | .nil => .nil
  | .cons t tl => .cons (Ty.addHolesSpec t) (TyList.addHolesSpec tl)
end

end ty

namespace rty

/-- Free variable names of the `rty` layer (`Name` in
`flux-middle/src/rty/expr.rs`). -/
abbrev Name := Nat

/-- De Bruijn bound variable of the `rty` layer (`BoundVar`). -/
structure BoundVar where
  debruijn : Nat
  index : Nat
  deriving DecidableEq

/-- Root of a path (`Loc` in `rty/expr.rs`): a local, free, or bound
variable. -/
inductive Loc where
  | localVar (l : Nat)
  | free (n : Name)
  | bound (b : BoundVar)
  deriving DecidableEq

/-- A storage path (`Path` in `rty/expr.rs`): a root location plus an ordered
list of field projections. -/
structure Path where
  loc : Loc
  projection : List Nat
  deriving DecidableEq

/-- A variable (`Var` in `rty/expr.rs`): bound or free. -/
inductive Var where
  | bound (b : BoundVar)
  | free (n : Name)
  deriving DecidableEq

mutual
/-- Expressions of the `rty` layer, one constructor per `ExprKind` variant of
`flux-middle/src/rty/expr.rs` (the literal-constant and operator types are
shared with `flux-fixpoint`, as in the source's `pub use`; interned function
symbols are modelled as numbers). -/
inductive Expr where
  | constDefId (d : Nat)
  | freeVar (n : Name)
  | boundVar (b : BoundVar)
  | localVar (l : Nat)
  | constant (c : ty.Constant)
  | binaryOp (op : ty.BinOp) (e1 e2 : Expr)
  | app (func : Nat) (args : ExprList)
  | unaryOp (op : ty.UnOp) (e : Expr)
  | tupleProj (e : Expr) (i : Nat)
  | tuple (es : ExprList)
  | pathProj (e : Expr) (f : Nat)
  | ifThenElse (p e1 e2 : Expr)

/-- A list of `rty` expressions, as an explicit cons list. -/
inductive ExprList where
  | nil
  | cons (head : Expr) (tail : ExprList)
end

/-- Reinterprets an expression as a location (`Expr::to_loc`): free variables,
locals and bound variables succeed, everything else yields `none`. -/
def Expr.to_loc : Expr → Option Loc
  | .freeVar n => some (.free n)
  | .localVar l => some (.localVar l)
  | .boundVar b => some (.bound b)
  | _ => none

/-- Reinterprets an expression as a variable (`Expr::to_var`). -/
def Expr.to_var : Expr → Option Var
  | .freeVar n => some (.free n)
  | .boundVar b => some (.bound b)
  | _ => none

/-- Reinterprets an expression as a free-variable name (`Expr::to_name`). -/
def Expr.to_name : Expr → Option Name
  | .freeVar n => some n
  | _ => none

/-- The loop of `Expr::to_path`: each `PathProj` layer pushes its field and
descends (the source pushes outermost-first into a vector and reverses it at
the end; consing onto the accumulator builds that reversed vector directly),
and a variable root terminates the loop. -/
def Expr.to_path_go : Expr → List Nat → Option Path
  | .pathProj e f, proj => Expr.to_path_go e (f :: proj)
  | .freeVar n, proj => some ⟨.free n, proj⟩
  | .boundVar b, proj => some ⟨.bound b, proj⟩
  | .localVar l, proj => some ⟨.localVar l, proj⟩
  | _, _ => none

/-- Reinterprets an expression as a path (`Expr::to_path`), succeeding exactly
on projection chains over a free/bound/local variable root. -/
def Expr.to_path (e : Expr) : Option Path :=
  Expr.to_path_go e []

/-- Turns a variable into an expression (`Var::to_expr`). -/
def Var.to_expr : Var → Expr
  | .bound b => .boundVar b
  | .free n => .freeVar n

/-- Turns a variable into a location (`Var::to_loc`). -/
def Var.to_loc : Var → Loc
  | .bound b => .bound b
  | .free n => .free n

/-- Turns a location into an expression (`Loc::to_expr`). -/
def Loc.to_expr : Loc → Expr
  | .localVar l => .localVar l
  | .free n => .freeVar n
  | .bound b => .boundVar b

/-- Turns a path into an expression (`Path::to_expr`): the source folds
`path_proj` over the projection list *reversed*
(`self.projection.iter().rev().fold(..)`). -/
def Path.to_expr (p : Path) : Expr :=
  p.projection.reverse.foldl (fun e f => Expr.pathProj e f) p.loc.to_expr

/-- Shape supported by `to_loc`, per the claim: a free-variable,
bound-variable or local-variable expression. -/
def Expr.isLocShape : Expr → Bool
  | .freeVar _ => true
  | .localVar _ => true
  | .boundVar _ => true
  | _ => false

/-- Shape supported by `to_var`, per the claim: a free-variable or
bound-variable expression. -/
def Expr.isVarShape : Expr → Bool
  | .freeVar _ => true
  | .boundVar _ => true
  | _ => false

/-- Shape supported by `to_name`, per the claim: a free-variable
expression. -/
def Expr.isNameShape : Expr → Bool
  | .freeVar _ => true
  | _ => false

/-- Shape supported by `to_path`, per the claim: a chain of path projections
over a free-variable, bound-variable or local-variable root. -/
def Expr.isPathShape : Expr → Bool
  | .pathProj e _ => e.isPathShape
  | .freeVar _ => true
  | .boundVar _ => true
  | .localVar _ => true
  | _ => false

end rty

theorem rty_to_path_go_isSome (e : rty.Expr) :
    ∀ acc, (rty.Expr.to_path_go e acc).isSome = e.isPathShape := by
  cases e with
  | pathProj e f =>
      intro acc
      simpa [rty.Expr.to_path_go, rty.Expr.isPathShape] using rty_to_path_go_isSome e (f :: acc)
  | _ =>
      intro acc
      simp [rty.Expr.to_path_go, rty.Expr.isPathShape]

/-- C4: the reinterpretation operations `to_path`, `to_loc`, `to_var` and
`to_name` are total: each returns `some` exactly for the supported
free-variable/bound-variable/local-variable/projection-chain shapes and
`none` for every other expression shape; in particular, converting an
expression whose root is a binary-operator application to a path returns
`none`. -/
theorem C4_reinterpretation_total :
    (∀ e : rty.Expr, e.to_loc.isSome = e.isLocShape)
    ∧ (∀ e : rty.Expr, e.to_var.isSome = e.isVarShape)
    ∧ (∀ e : rty.Expr, e.to_name.isSome = e.isNameShape)
    ∧ (∀ e : rty.Expr, e.to_path.isSome = e.isPathShape)
    ∧ (∀ (op : ty.BinOp) (e1 e2 : rty.Expr), (rty.Expr.binaryOp op e1 e2).to_path = none) :=
  ⟨fun e => by cases e <;> simp [rty.Expr.to_loc, rty.Expr.isLocShape],
    fun e => by cases e <;> simp [rty.Expr.to_var, rty.Expr.isVarShape],
    fun e => by cases e <;> simp [rty.Expr.to_name, rty.Expr.isNameShape],
    fun e => rty_to_path_go_isSome e [],
    fun op e1 e2 => rfl⟩

theorem rty_to_path_go_foldl (l : List Nat) (root : rty.Expr) (acc : List Nat) :
    rty.Expr.to_path_go (l.foldl (fun e f => rty.Expr.pathProj e f) root) acc =
      rty.Expr.to_path_go root (l ++ acc) := by
  induction l generalizing root acc with
  | nil => rfl
  | cons f l ih => simpa [List.foldl] using ih (rty.Expr.pathProj root f) acc

theorem rty_loc_to_path_go (loc : rty.Loc) (acc : List Nat) :
    rty.Expr.to_path_go loc.to_expr acc = some ⟨loc, acc⟩ := by
  cases loc <;> rfl

/-- C7 (counterexample): converting a path to an expression and back does not
return the original path.  For the path `l0.0.1` (root local `0`, projections
`[0, 1]`), the round trip returns the path `l0.1.0` instead: `Path::to_expr`
folds the projections in reversed order while `Expr::to_path` rebuilds them
in syntactic nesting order. -/
theorem C7_counterexample :
    (rty.Path.mk (rty.Loc.localVar 0) [0, 1]).to_expr.to_path ≠
      some (rty.Path.mk (rty.Loc.localVar 0) [0, 1]) := by
  decide

/-- C7 (amended): for every path, converting it to an expression with
`Path::to_expr` and reinterpreting the result with `Expr::to_path` yields
`some` path with the same root location and the *reversed* projection list
(so the original path is recovered exactly when the projection list is a
palindrome, e.g. has at most one element). -/
theorem C7_roundtrip_reverses_projections (p : rty.Path) :
    p.to_expr.to_path = some (rty.Path.mk p.loc p.projection.reverse) := by
  unfold rty.Path.to_expr rty.Expr.to_path
  rw [rty_to_path_go_foldl, List.append_nil, rty_loc_to_path_go]

namespace fixpoint

/-- Sorts of the solver input language.  Modelled from the spec: the
`flux-fixpoint` `constraint` module is not among the provided sources; the
task text uses integer, boolean and unit sorts. -/
inductive FSort where
  | int
  | bool
  | unit
  deriving DecidableEq

/-- Rendering of a sort in the task text.  Modelled from the spec (the
`Sort` `Debug` impl lives in the missing `constraint` module). -/
def FSort.display : FSort → String
  | .int => "int"
  | .bool => "bool"
  | .unit => "Unit"

/-- Rendering of an ambient-constant name (`{name:?}`).  Modelled from the
spec: the `Name` newtype's debug format lives in the missing `constraint`
module; names render as `a<n>`. -/
def fmtName (n : Nat) : String :=
  "a" ++ toString n

/-- Rendering of a k-variable id (`{:?}` on `KVid`).  Modelled from the spec:
the `KVid` newtype's debug format lives in the missing `constraint` module;
k-variable ids render as `$k<n>`. -/
def fmtKVid (k : Nat) : String :=
  "$k" ++ toString k

/-- A qualifier offered to the solver.  Modelled from the spec: the
`Qualifier` type and its `Display` live in the missing `constraint` module;
only its rendered declaration text matters to the serialization claims, so a
qualifier is modelled by that text. -/
structure Qualifier where
  text : String

/-- Rendered declaration of a qualifier. -/
def Qualifier.display (q : Qualifier) : String :=
  q.text

/-- The built-in default qualifiers.  Modelled from the spec: "default
qualifiers are always included"; their exact set lives in the missing
`constraint` module, so a fixed representative list is used. -/
def DEFAULT_QUALIFIERS : List Qualifier :=
  [⟨"(qualif Eq ((a int) (b int)) (a = b))"⟩,
    ⟨"(qualif Ge ((a int) (b int)) (a >= b))"⟩]

/-- An uninterpreted-function declaration: a name plus a sort signature,
here kept as its rendered text (the `UifDef` fields live in the missing
`constraint` module). -/
structure UifDef where
  name : String
  sort : String

/-- Rendered declaration of an uninterpreted function, from
`impl fmt::Display for UifDef` in `flux-fixpoint/src/lib.rs`:
`(constant <name> <sort>)`. -/
def UifDef.display (u : UifDef) : String :=
  "(constant " ++ u.name ++ " " ++ u.sort ++ ")"

/-- A k-variable declaration: its id plus its argument-sort list
(`pub struct KVar(pub KVid, pub Vec<Sort>)`). -/
structure KVar where
  kvid : Nat
  sorts : List FSort

/-- Rendered declaration of a k-variable, from `impl fmt::Display for KVar`:
`(var <id> ((s1) (s2) ...))` with each sort parenthesized and the list
space-separated. -/
def KVar.display (k : KVar) : String :=
  "(var " ++ fmtKVid k.kvid ++ " ("
    ++ String.intercalate " " (k.sorts.map (fun s => "(" ++ s.display ++ ")")) ++ "))"

/-- The constraint tree of a task.  Modelled from the spec: the `Constraint`
type and its `Display` live in the missing `constraint` module; the
serialization claims only depend on its rendered text. -/
structure Constraint where
  text : String

/-- A verification task (`Task<Tag>` in `flux-fixpoint/src/lib.rs`):
ambient constants, k-variables, the constraint, user qualifiers and
uninterpreted-function declarations. -/
structure Task where
  constants : List (Nat × FSort)
  kvars : List KVar
  constraint : Constraint
  qualifiers : List Qualifier
  uifs : List UifDef

/-- Insertion of two spaces after every newline character. -/
def padChars : List Char → List Char
  | [] => []
  | c :: cs => if c = '\n' then c :: ' ' :: ' ' :: padChars cs else c :: padChars cs

/-- Two-space padding of every line after a newline.  Modelled from the spec:
`PadAdapter::wrap_fmt(f, 2)` (from the external `flux-common` crate) indents
the constraint tree. -/
def padText (s : String) : String :=
  ⟨padChars s.data⟩

/-- Serialization of a task, translated write-by-write from
`impl fmt::Display for Task`: `writeln!` renders its argument followed by a
newline, `write!` renders it with no newline — in particular the constant
declarations are emitted with `write!`. -/
def Task.display (t : Task) : String :=
  String.join (DEFAULT_QUALIFIERS.map (fun q => q.display ++ "\n"))
    ++ String.join (t.qualifiers.map (fun q => q.display ++ "\n"))
    ++ "(data Pair 2 = [| Pair \x7b fst: @(0), snd: @(1) \x7d ])\n"
    ++ "(data Unit 0 = [| Unit \x7b \x7d])\n"
    ++ String.join (t.constants.map (fun c => "(constant " ++ fmtName c.1 ++ " " ++ c.2.display ++ ")"))
    ++ String.join (t.uifs.map (fun u => u.display ++ "\n"))
    ++ String.join (t.kvars.map (fun k => k.display ++ "\n"))
    ++ "\n"
    ++ "(constraint" ++ padText ("\n" ++ t.constraint.text) ++ "\n)\n"

/-- The serialized section of built-in default qualifiers, one declaration
line each. -/
def defaultQualifiersSection : String :=
  String.join (DEFAULT_QUALIFIERS.map (fun q => q.display ++ "\n"))

/-- The serialized section of the task's user qualifiers, one declaration
line each. -/
def userQualifiersSection (t : Task) : String :=
  String.join (t.qualifiers.map (fun q => q.display ++ "\n"))

/-- The two fixed tuple/unit `data` declarations. -/
def dataSection : String :=
  "(data Pair 2 = [| Pair \x7b fst: @(0), snd: @(1) \x7d ])\n"
    ++ "(data Unit 0 = [| Unit \x7b \x7d])\n"

/-- The serialized section of ambient-constant declarations. -/
def constantsSection (t : Task) : String :=
  String.join (t.constants.map (fun c => "(constant " ++ fmtName c.1 ++ " " ++ c.2.display ++ ")"))

/-- The serialized section of uninterpreted-function declarations, one line
each. -/
def uifsSection (t : Task) : String :=
  String.join (t.uifs.map (fun u => u.display ++ "\n"))

/-- The serialized section of k-variable declarations: one declaration per
k-variable, giving its id and its full argument-sort list. -/
def kvarsSection (t : Task) : String :=
  String.join (t.kvars.map (fun k =>
    "(var " ++ fmtKVid k.kvid ++ " ("
      ++ String.intercalate " " (k.sorts.map (fun s => "(" ++ s.display ++ ")")) ++ "))" ++ "\n"))

/-- The single top-level `constraint` block containing the indented
constraint tree. -/
def constraintSection (t : Task) : String :=
  "\n" ++ "(constraint" ++ padText ("\n" ++ t.constraint.text) ++ "\n)\n"

end fixpoint

/-- C3: for every task, serialization emits sections in exactly this order —
built-in default qualifiers, user qualifiers, the two fixed tuple/unit `data`
declarations, ambient constant declarations, uninterpreted-function
declarations, one k-variable declaration per k-variable giving its id and its
full argument-sort list, and finally a single top-level `constraint` block
containing the constraint tree. -/
theorem C3_serialization_order (t : fixpoint.Task) :
    t.display = fixpoint.defaultQualifiersSection ++ fixpoint.userQualifiersSection t
      ++ fixpoint.dataSection ++ fixpoint.constantsSection t ++ fixpoint.uifsSection t
      ++ fixpoint.kvarsSection t ++ fixpoint.constraintSection t := by
  simp [fixpoint.Task.display, fixpoint.defaultQualifiersSection,
    fixpoint.userQualifiersSection, fixpoint.dataSection, fixpoint.constantsSection,
    fixpoint.uifsSection, fixpoint.kvarsSection, fixpoint.constraintSection,
    fixpoint.KVar.display, String.append_assoc]

/-- C2 (failing input): serializing a task with two ambient constants and one
uninterpreted function puts both `constant` declarations and the following
uninterpreted-function declaration on one single line — the constant
declarations are emitted with `write!`, which appends no newline, so they are
merged with the next declaration rather than terminated before it. -/
theorem C2_merged_constant_lines :
    fixpoint.Task.display
        ⟨[(0, .int), (1, .int)], [], ⟨"(true)"⟩, [],
          [⟨"f", "(func(0, [int]) int)"⟩]⟩ =
      "(qualif Eq ((a int) (b int)) (a = b))\n"
        ++ "(qualif Ge ((a int) (b int)) (a >= b))\n"
        ++ "(data Pair 2 = [| Pair \x7b fst: @(0), snd: @(1) \x7d ])\n"
        ++ "(data Unit 0 = [| Unit \x7b \x7d])\n"
        ++ "(constant a0 int)(constant a1 int)(constant f (func(0, [int]) int))\n"
        ++ "\n(constraint\n  (true)\n)\n" := by
  set_option maxRecDepth 10000 in decide

namespace fixpoint

/-- Aggregate statistics of a solver verdict (`Stats`): constraint,
iteration, check and valid counts. -/
structure Stats where
  num_cstr : Int
  num_iter : Int
  num_chck : Int
  num_vald : Int

/-- An individual failure of an `Unsafe` verdict (`Error<Tag>`): an integer
obligation id paired with a caller-supplied tag. -/
structure Error (Tag : Type) where
  id : Int
  tag : Tag

/-- Opaque diagnostic payload of a `Crash` verdict (`CrashInfo`), a list of
implementation-defined values. -/
structure CrashInfo where
  payload : List String

/-- A parsed solver verdict (`FixpointResult<Tag>`): `safe` models the `Safe`
variant, `bad` the `Unsafe` variant (statistics plus individual failures),
and `crash` the `Crash` variant. -/
inductive FixpointResult (Tag : Type) where
  | safe (stats : Stats)
  | bad (stats : Stats) (errors : List (Error Tag))
  | crash (info : CrashInfo)

/-- Outcomes of the operating-system interactions of `Task::check`, one field
per fallible step.  Modelled from the spec: process spawning, writing to the
child's input stream and reading/parsing its output are environment
behaviour; error payloads are numeric error codes. -/
structure SolverWorld (Tag : Type) where
  spawn : Except Nat Unit
  write : String → Except Nat Unit
  wait : Except Nat String
  parse : String → Except Nat (FixpointResult Tag)

/-- Observable outcome of running `Task::check`: a process abort
(`panicked`, from an `unwrap` on a failed operation), a returned I/O error,
or a returned verdict. -/
inductive CheckOutcome (Tag : Type) where
  | panicked
  | err (e : Nat)
  | ok (r : FixpointResult Tag)

/-- The check operation of `Task::check` in `flux-fixpoint/src/lib.rs`,
translated step by step for a given environment `w`: spawn the solver
(`.spawn().unwrap()` — a spawn failure panics), write the serialized task
(`writeln!(w, "{self}")?`), wait for the captured output
(`child.wait_with_output()?`), and parse it
(`serde_json::from_slice(&out.stdout)?`), each `?` returning the error to
the caller. -/
def Task.check {Tag : Type} (t : Task) (w : SolverWorld Tag) : CheckOutcome Tag :=
  match w.spawn with
  | .error _ => .panicked
  | .ok _ =>
    match w.write (t.display ++ "\n") with
    | .error e => .err e
    | .ok _ =>
      match w.wait with
      | .error e => .err e
      | .ok out =>
        match w.parse out with
        | .error e => .err e
        | .ok r => .ok r

/-- A task with no constants, k-variables, qualifiers or uninterpreted
functions and a trivial constraint. -/
def trivialTask : Task :=
  ⟨[], [], ⟨"(true)"⟩, [], []⟩

/-- An environment whose process spawn fails (e.g. the `fixpoint` executable
is not on the search path); all later steps would succeed. -/
def spawnFailWorld : SolverWorld Nat :=
  ⟨.error 2, fun _ => .ok (), .ok "", fun _ => .ok (.safe ⟨0, 0, 0, 0⟩)⟩

/-- An environment whose spawn succeeds but writing the task text fails with
error code 5. -/
def writeFailWorld : SolverWorld Nat :=
  ⟨.ok (), fun _ => .error 5, .ok "", fun _ => .ok (.safe ⟨0, 0, 0, 0⟩)⟩

/-- An environment where reading the verdict fails with error code 7. -/
def waitFailWorld : SolverWorld Nat :=
  ⟨.ok (), fun _ => .ok (), .error 7, fun _ => .ok (.safe ⟨0, 0, 0, 0⟩)⟩

end fixpoint

/-- C5 (failing input): an I/O failure while launching the external solver
subprocess does not surface as a returned error — `Task::check` calls
`.spawn().unwrap()`, so a failed launch aborts the process (`panicked`) —
whereas failures while writing the task or reading the verdict are returned
as error results, as the claim demands. -/
theorem C5_spawn_failure_panics :
    fixpoint.Task.check fixpoint.trivialTask fixpoint.spawnFailWorld =
        fixpoint.CheckOutcome.panicked
      ∧ fixpoint.Task.check fixpoint.trivialTask fixpoint.writeFailWorld =
        fixpoint.CheckOutcome.err 5
      ∧ fixpoint.Task.check fixpoint.trivialTask fixpoint.waitFailWorld =
        fixpoint.CheckOutcome.err 7 :=
  ⟨rfl, rfl, rfl⟩

namespace evars

/-- Opaque context id (`CtxtId`, derived from the owning allocation's
identity). -/
abbrev CtxtId := Nat

/-- Data owned by an existential-variable context (`EvarCtxtData`): the scope
mapping ambient names to sorts, and the append-only list of minted
metavariable sorts. -/
structure EvarCtxtData where
  scope : List (ty.Name × ty.Srt)
  evars : List ty.Srt
  deriving DecidableEq

/-- Process-wide state of `ty/evars.rs`: the registry map held by the global
`EvarCtxtStore` (one `Arc` clone per entry) together with the outstanding
`EvarCtxt` handles, each identified by the context id its `Arc` points to. -/
structure RegState where
  store : List (CtxtId × EvarCtxtData)
  handles : List CtxtId
  deriving DecidableEq

/-- Registry lookup: find the data registered under a context id. -/
def findCtxt (s : RegState) (id : CtxtId) : Option EvarCtxtData :=
  (s.store.find? (fun e => e.1 == id)).map (fun e => e.2)

/-- The `Arc::strong_count` of a context's allocation as observed inside
`Drop::drop`: one reference for the registry entry (when present) plus one
per outstanding handle (the handle being dropped is still counted). -/
def strongCount (s : RegState) (id : CtxtId) : Nat :=
  (if s.store.any (fun e => e.1 == id) then 1 else 0) + s.handles.count id

/-- One step of the registry protocol.  `new` models `EvarCtxt::new`
(allocate a fresh context, insert it into the global store, hand back one
handle); `fresh` models `EvarCtxt::fresh` through a live handle (append a
minted sort; the registry keys are untouched); `drop` models
`impl Drop for EvarCtxt` (when the dropped handle observes a strong count of
exactly 2 — itself plus the store — the entry is removed from the store)
followed by the release of the handle's own reference. -/
inductive Step : RegState → RegState → Prop where
  | new (s : RegState) (d : EvarCtxtData) (id : CtxtId)
      (hs : ∀ e ∈ s.store, e.1 ≠ id) (hh : id ∉ s.handles) :
      Step s ⟨(id, d) :: s.store, id :: s.handles⟩
  | fresh (s : RegState) (id : CtxtId) (srt : ty.Srt) (hh : id ∈ s.handles) :
      Step s
        ⟨s.store.map (fun e =>
            if e.1 = id then (e.1, ⟨e.2.scope, e.2.evars ++ [srt]⟩) else e),
          s.handles⟩
  | drop (s : RegState) (id : CtxtId) (hh : id ∈ s.handles) :
      Step s
        ⟨if strongCount s id = 2 then s.store.filter (fun e => e.1 ≠ id) else s.store,
          s.handles.erase id⟩

/-- States reachable from the initial empty registry. -/
inductive Reaches : RegState → Prop where
  | init : Reaches ⟨[], []⟩
  | step {s s' : RegState} : Reaches s → Step s s' → Reaches s'

/-- Internal invariant of the registry: handles are pairwise distinct (an
`EvarCtxt` is never cloned), registry keys are pairwise distinct, and an id
is registered exactly when a handle to it is outstanding. -/
def Inv (s : RegState) : Prop :=
  s.handles.Nodup ∧ (s.store.map Prod.fst).Nodup
    ∧ ∀ id, id ∈ s.store.map Prod.fst ↔ id ∈ s.handles

end evars

theorem evars_find_aux (l : List (evars.CtxtId × evars.EvarCtxtData))
    (id : evars.CtxtId) :
    ((l.find? (fun e => e.1 == id)).map (fun e => e.2)).isSome ↔ id ∈ l.map Prod.fst := by
  induction l with
  | nil => simp
  | cons e l ih =>
      by_cases h : e.1 = id
      · rw [List.find?_cons_of_pos _ (by simp [h])]
        simp [h]
      · rw [List.find?_cons_of_neg _ (by simp [h])]
        simp only [ih, List.map_cons, List.mem_cons]
        constructor
        · exact Or.inr
        · rintro (h' | h')
          · exact absurd h'.symm h
          · exact h'

theorem evars_findCtxt_isSome (s : evars.RegState) (id : evars.CtxtId) :
    (evars.findCtxt s id).isSome ↔ id ∈ s.store.map Prod.fst :=
  evars_find_aux s.store id

theorem evars_inv_step {s s' : evars.RegState} (hi : evars.Inv s)
    (hs : evars.Step s s') : evars.Inv s' := by
  obtain ⟨hnd, hsd, hiff⟩ := hi
  cases hs with
  | new d id hfresh hh =>
      refine ⟨List.Nodup.cons hh hnd, ?_, ?_⟩
      · refine List.Nodup.cons ?_ hsd
        simp only [List.mem_map]
        rintro ⟨e, he, rfl⟩
        exact hfresh e he rfl
      · intro id'
        simp only [List.map_cons, List.mem_cons]
        rw [hiff id']
  | fresh id srt hh =>
      have hkeys : (s.store.map (fun e =>
          if e.1 = id then (e.1, evars.EvarCtxtData.mk e.2.scope (e.2.evars ++ [srt]))
          else e)).map Prod.fst = s.store.map Prod.fst := by
        rw [List.map_map]
        refine List.map_congr_left (fun e _ => ?_)
        by_cases h : e.1 = id <;> simp [h]
      exact ⟨hnd, by rw [hkeys]; exact hsd, fun id' => by rw [hkeys]; exact hiff id'⟩
  | drop id hh =>
      have hcnt : s.handles.count id = 1 := List.count_eq_one_of_mem hnd hh
      have hreg : id ∈ s.store.map Prod.fst := (hiff id).mpr hh
      have hany : s.store.any (fun e => e.1 == id) = true := by
        simp only [List.any_eq_true, beq_iff_eq]
        obtain ⟨e, he, h⟩ := List.mem_map.mp hreg
        exact ⟨e, he, h⟩
      have h2 : evars.strongCount s id = 2 := by
        simp [evars.strongCount, hany, hcnt]
      refine ⟨hnd.erase id, ?_, ?_⟩
      · simp only [h2, if_pos]
        exact List.Nodup.sublist (List.Sublist.map Prod.fst (List.filter_sublist _)) hsd
      · intro id'
        simp only [h2, if_pos]
        by_cases hid : id' = id
        · subst hid
          constructor
          · intro hmem
            obtain ⟨e, he, h⟩ := List.mem_map.mp hmem
            have := (List.mem_filter.mp he).2
            simp [h] at this
          · intro hmem
            exact absurd hmem (List.Nodup.not_mem_erase hnd)
        · constructor
          · intro hmem
            obtain ⟨e, he, h⟩ := List.mem_map.mp hmem
            have he' := (List.mem_filter.mp he).1
            have : id' ∈ s.handles := (hiff id').mp (List.mem_map.mpr ⟨e, he', h⟩)
            exact (List.mem_erase_of_ne hid).mpr this
          · intro hmem
            have : id' ∈ s.handles := (List.mem_erase_of_ne hid).mp hmem
            obtain ⟨e, he, h⟩ := List.mem_map.mp ((hiff id').mpr this)
            refine List.mem_map.mpr ⟨e, List.mem_filter.mpr ⟨he, ?_⟩, h⟩
            simp [h, hid]

theorem evars_inv_reaches {s : evars.RegState} (h : evars.Reaches s) : evars.Inv s := by
  induction h with
  | init => exact ⟨List.nodup_nil, List.nodup_nil, by simp⟩
  | step hr hs ih => exact evars_inv_step ih hs

/-- C9: in every reachable registry state, a context id is findable in the
registry exactly while a handle to that context is outstanding: while any
handle exists the lookup succeeds, and once the last (only) handle has been
released the lookup finds nothing — the entry is removed exactly at the
release of the last handle and never earlier. -/
theorem C9_registry_entry_iff_handle (s : evars.RegState) (h : evars.Reaches s)
    (id : evars.CtxtId) :
    (id ∈ s.handles → (evars.findCtxt s id).isSome = true)
    ∧ (id ∉ s.handles → evars.findCtxt s id = none) := by
  obtain ⟨-, -, hiff⟩ := evars_inv_reaches h
  constructor
  · intro hmem
    exact (evars_findCtxt_isSome s id).mpr ((hiff id).mpr hmem)
  · intro hmem
    cases hfind : evars.findCtxt s id with
    | none => rfl
    | some d =>
        exact absurd ((hiff id).mp ((evars_findCtxt_isSome s id).mp (by simp [hfind]))) hmem

/-- C9 (witness): after creating context 0 its id is findable; after a
run that creates context 0 and then drops its only handle, the lookup finds
nothing. -/
theorem C9_witness :
    (evars.findCtxt ⟨[(0, ⟨[], []⟩)], [0]⟩ 0).isSome = true
    ∧ evars.findCtxt ⟨[], []⟩ 0 = none := by
  have r1 : evars.Reaches ⟨[(0, ⟨[], []⟩)], [0]⟩ :=
    .step .init (.new ⟨[], []⟩ ⟨[], []⟩ 0 (by simp) (by simp))
  have sd : evars.Step ⟨[(0, ⟨[], []⟩)], [0]⟩ ⟨[], []⟩ :=
    evars.Step.drop ⟨[(0, ⟨[], []⟩)], [0]⟩ 0 (by simp)
  have r2 : evars.Reaches ⟨[], []⟩ := .step r1 sd
  exact ⟨(C9_registry_entry_iff_handle _ r1 0).1 (by simp),
    (C9_registry_entry_iff_handle _ r2 0).2 (by simp)⟩

namespace lr

/-- Free-variable names of the `liquid-rust-typeck` `ty` layer.  Modelled
from the spec: that crate's `ty` module is not among the provided sources;
names are opaque indices minted by an index generator starting at zero. -/
abbrev LName := Nat

/-- Sorts of that layer.  Modelled from the spec: integer and boolean
sorts. -/
inductive LSort where
  | int
  | bool
  deriving DecidableEq

/-- An ambient parameter: a name with a sort (`Param`).  Modelled from the
spec: the binder list of a refined signature pairs names with sorts. -/
structure Param where
  name : LName
  sort : LSort
  deriving DecidableEq

/-- A variable: bound (a positional index from the top of the binder stack)
or free.  Modelled from the spec's two-namespace variable design, as used by
`extract_qualifiers.rs`. -/
inductive LVar where
  | bound (index : Nat)
  | free (name : LName)
  deriving DecidableEq

/-- Expressions of that layer, with the variants `expr_to_qualifier` handles
(variable, constant, binary operation) plus an opaque constructor standing
for every remaining `ExprKind` variant, on which the transformation is
`unimplemented!()`.  Modelled from the spec: the defining module is not among
the provided sources; constants and operators are opaque tags. -/
inductive LExpr where
  | var (v : LVar)
  | constant (c : Nat)
  | binaryOp (op : Nat) (e1 e2 : LExpr)
  | other (k : Nat)
  deriving DecidableEq

/-- Base types of that layer (`BaseTy`).  Modelled from the spec: signed and
unsigned integers, booleans, and datatypes. -/
inductive LBaseTy where
  | int (w : Nat)
  | uint (w : Nat)
  | bool
  | adt (d : Nat)
  deriving DecidableEq

/-- Predicates of that layer (`Pred::{Infer, Expr}`).  Modelled from the
spec: an inference hole or an expression. -/
inductive LPred where
  | infer (k : Nat)
  | expr (e : LExpr)
  deriving DecidableEq

/-- Types of that layer, with the variants `ty_to_qualifier` distinguishes:
concretely indexed (`Refine`), existential (`Exists`), and an opaque
constructor for every remaining `TyKind` variant (which yields no
qualifier).  Modelled from the spec. -/
inductive LTy where
  | refine (bty : LBaseTy) (exprs : List LExpr)
  | exists_ (bty : LBaseTy) (pred : LPred)
  | other (k : Nat)
  deriving DecidableEq

/-- A constraint (`Constr::{Type, Pred}`).  Modelled from the spec: a path
obligation or an atomic predicate. -/
inductive Constr where
  | type (path : Nat) (ty : LTy)
  | pred (e : LExpr)
  deriving DecidableEq

/-- A refined function signature of that layer.  Modelled from the spec:
requires clauses, argument types, return type, ensures clauses. -/
structure LFnSig where
  requires : List Constr
  args : List LTy
  ret : LTy
  ensures : List Constr

/-- A generated qualifier (`ty::Qualifier`): a name, a parameter list of
(name, sort) pairs, and a predicate expression. -/
structure Qualifier where
  name : String
  args : List (LName × LSort)
  expr : LExpr
  deriving DecidableEq

/-- Free variables of an expression of that layer. -/
def LExpr.fvarsL : LExpr → List LName
  | .var (.free n) => [n]
  | .var (.bound _) => []
  | .constant _ => []
  | .binaryOp _ e1 e2 => e1.fvarsL ++ e2.fvarsL
  | .other _ => []

/-- The immutable part of the `Transformer`: the renaming map from original
ambient names to fresh ones, and the renamed parameter list. -/
structure TCtx where
  free_map : List (LName × LName)
  params : List Param

/-- Lookup in the renaming map with insert-overwrite semantics: the latest
binding for a key wins (`FxHashMap::insert` followed by `get`). -/
def lookupFM (m : List (LName × LName)) (k : LName) : Option LName :=
  (m.reverse.find? (fun e => e.1 == k)).map (fun e => e.2)

/-- Insertion into the `seen` set (`FxHashSet::insert`). -/
def insertSeen (n : LName) (seen : List LName) : List LName :=
  if n ∈ seen then seen else n :: seen

/-- The loop body of `Transformer::new`: rename each parameter to the next
fresh name (the generator starts at `g`), recording original-to-fresh
bindings in insertion order.  Returns the renaming map, the renamed
parameters, and the next fresh index. -/
def newAux : List Param → Nat → List (LName × LName) × List Param × Nat
  | [], g => ([], [], g)
  | p :: ps, g =>
      let r := newAux ps (g + 1)
      ((p.name, g) :: r.1, ⟨g, p.sort⟩ :: r.2.1, r.2.2)

/-- `Transformer::new`: builds the renaming map and renamed parameter list
from the ambient parameters, with the fresh-name generator starting at 0. -/
def Transformer.new (params : List Param) : TCtx × Nat :=
  let r := newAux params 0
  (⟨r.1, r.2.1⟩, r.2.2)

/-- `Transformer::expr_to_qualifier`: rewrites an expression, replacing each
bound variable by the fresh name at its position from the top of the `bound`
stack, each free variable by its renamed name (recording it in `seen`), and
recursing through binary operations.  `none` models a panic: a bound index
out of range, a free variable missing from the renaming map, or an
unimplemented expression kind. -/
def expr_to_qualifier (cx : TCtx) (bound : List LName) :
    LExpr → List LName → Option (LExpr × List LName)
  | .var (.bound index), seen =>
      if h : index < bound.length
      then some (.var (.free (bound.get ⟨bound.length - index - 1, by omega⟩)), seen)
      else none
  | .var (.free name), seen =>
      match lookupFM cx.free_map name with
      | some n => some (.var (.free n), insertSeen n seen)
      | none => none
  | .constant c, seen => some (.constant c, seen)
  | .binaryOp op e1 e2, seen =>
      (expr_to_qualifier cx bound e1 seen).bind fun r1 =>
        (expr_to_qualifier cx bound e2 r1.2).bind fun r2 =>
          some (.binaryOp op r1.1 r2.1, r2.2)
  | .other _, _ => none

/-- `Transformer::relevant_params`: the renamed ambient parameters whose name
was recorded in `seen`, in parameter order. -/
def relevant_params (cx : TCtx) (seen : List LName) : List (LName × LSort) :=
  cx.params.filterMap (fun p => if p.name ∈ seen then some (p.name, p.sort) else none)

/-- `basety_to_sort`: integer and unsigned base types have integer sort,
booleans boolean sort; datatypes are `unimplemented!()` (modelled as
`none`). -/
def basety_to_sort : LBaseTy → Option LSort
  | .int _ => some .int
  | .uint _ => some .int
  | .bool => some .bool
  | .adt _ => none

/-- `Transformer::ty_to_qualifier`: a concretely-indexed type yields no
qualifier; an existential type consumes a fresh name for its bound value
variable (pushed on the `bound` stack for the conversion, popped after) and,
when its predicate is an expression, yields a qualifier whose parameters are
the relevant ambient parameters plus the freshly named bound variable; any
other type yields no qualifier.  Returns the optional qualifier and the next
fresh index; `none` models a panic inside the conversion. -/
def ty_to_qualifier (cx : TCtx) (bound : List LName) (gen : Nat) :
    LTy → Option (Option Qualifier × Nat)
  | .refine _ _ => some (none, gen)
  | .exists_ bty pred =>
      let fresh := gen
      match pred with
      | .infer _ => some (none, gen + 1)
      | .expr e =>
          (expr_to_qualifier cx (bound ++ [fresh]) e []).bind fun r =>
            (basety_to_sort bty).map fun s =>
              (some ⟨"Test", relevant_params cx r.2 ++ [(fresh, s)], r.1⟩, gen + 1)
  | .other _ => some (none, gen)

/-- `Transformer::constr_to_qualifer`: a type obligation defers to
`ty_to_qualifier`; an atomic predicate yields a qualifier whose parameters
are exactly the relevant ambient parameters. -/
def constr_to_qualifer (cx : TCtx) (gen : Nat) : Constr → Option (Option Qualifier × Nat)
  | .type _ t => ty_to_qualifier cx [] gen t
  | .pred e =>
      (expr_to_qualifier cx [] e []).map fun r =>
        (some ⟨"Test", relevant_params cx r.2, r.1⟩, gen)

/-- `Transformer::process_args` / `process_ret` body: run `ty_to_qualifier`
over a list of types, keeping the produced qualifiers in order and threading
the fresh-name generator. -/
def process_tys (cx : TCtx) : List LTy → Nat → Option (List Qualifier × Nat)
  | [], gen => some ([], gen)
  | t :: ts, gen =>
      (ty_to_qualifier cx [] gen t).bind fun r =>
        (process_tys cx ts r.2).map fun r2 => (r.1.toList ++ r2.1, r2.2)

/-- `Transformer::process_requires` / `process_ensures` body: run
`constr_to_qualifer` over a list of constraints. -/
def process_constrs (cx : TCtx) : List Constr → Nat → Option (List Qualifier × Nat)
  | [], gen => some ([], gen)
  | c :: cs, gen =>
      (constr_to_qualifer cx gen c).bind fun r =>
        (process_constrs cx cs r.2).map fun r2 => (r.1.toList ++ r2.1, r2.2)

/-- `qualifiers_from_fn_sig`: renames the ambient parameters into a fresh
pool, then collects the qualifiers generated from the argument types, the
requires clauses, the ensures clauses, and the return type, in that order. -/
def qualifiers_from_fn_sig (fn_sig : LFnSig) (params : List Param) :
    Option (List Qualifier) :=
  let r := Transformer.new params
  (process_tys r.1 fn_sig.args r.2).bind fun a =>
    (process_constrs r.1 fn_sig.requires a.2).bind fun b =>
      (process_constrs r.1 fn_sig.ensures b.2).bind fun c =>
        (ty_to_qualifier r.1 [] c.2 fn_sig.ret).map fun d =>
          a.1 ++ b.1 ++ c.1 ++ d.1.toList

/-- The property the claim ascribes to a generated qualifier, relative to the
size of the fresh pool slice holding the renamed ambient parameters (the
renamed ambient names are exactly the fresh names below `plen`): every
renamed ambient parameter in the qualifier's parameter list occurs in its
predicate expression, and every free variable of the predicate expression is
in the parameter list. -/
def QOk (plen : Nat) (q : Qualifier) : Prop :=
  (∀ n ∈ q.args.map Prod.fst, n < plen → n ∈ q.expr.fvarsL)
    ∧ (∀ n ∈ q.expr.fvarsL, n ∈ q.args.map Prod.fst)

end lr

theorem lr_lookupFM_mem {m : List (lr.LName × lr.LName)} {k v : lr.LName}
    (h : lr.lookupFM m k = some v) : v ∈ m.map Prod.snd := by
  unfold lr.lookupFM at h
  cases hf : m.reverse.find? (fun e => e.1 == k) with
  | none => rw [hf] at h; exact absurd h (by simp)
  | some e =>
      rw [hf] at h
      have hv : e.2 = v := by simpa using h
      have he := List.mem_of_find?_eq_some hf
      rw [List.mem_reverse] at he
      exact List.mem_map.mpr ⟨e, he, hv⟩

theorem lr_insertSeen_mem {n m : lr.LName} {seen : List lr.LName} :
    m ∈ lr.insertSeen n seen ↔ m = n ∨ m ∈ seen := by
  unfold lr.insertSeen
  by_cases h : n ∈ seen
  · simp only [if_pos h]
    constructor
    · exact Or.inr
    · rintro (rfl | hm)
      · exact h
      · exact hm
  · simp [if_neg h]

theorem lr_expr_to_qualifier_inv (cx : lr.TCtx) (bound : List lr.LName) (e : lr.LExpr) :
    ∀ seen e' seen', lr.expr_to_qualifier cx bound e seen = some (e', seen') →
      (∀ n ∈ seen, n ∈ seen')
      ∧ (∀ n ∈ seen', n ∈ seen ∨ n ∈ e'.fvarsL)
      ∧ (∀ n ∈ e'.fvarsL, n ∈ seen' ∨ n ∈ bound)
      ∧ (∀ n ∈ seen', n ∈ seen ∨ n ∈ cx.free_map.map Prod.snd) := by
  induction e with
  | var v =>
      intro seen e' seen' h
      cases v with
      | bound index =>
          by_cases hi : index < bound.length
          · simp only [lr.expr_to_qualifier, dif_pos hi, Option.some_inj] at h
            injection h with he hs
            subst he
            subst hs
            refine ⟨fun n hn => hn, fun n hn => Or.inl hn, ?_, fun n hn => Or.inl hn⟩
            intro n hn
            simp only [lr.LExpr.fvarsL, List.mem_singleton] at hn
            exact Or.inr (hn ▸ List.get_mem bound _ _)
          · simp [lr.expr_to_qualifier, dif_neg hi] at h
      | free name =>
          cases hf : lr.lookupFM cx.free_map name with
          | none => simp [lr.expr_to_qualifier, hf] at h
          | some m =>
              simp only [lr.expr_to_qualifier, hf, Option.some_inj] at h
              injection h with he hs
              subst he
              subst hs
              refine ⟨?_, ?_, ?_, ?_⟩
              · intro n hn
                exact lr_insertSeen_mem.mpr (Or.inr hn)
              · intro n hn
                rcases lr_insertSeen_mem.mp hn with rfl | hn
                · right
                  simp [lr.LExpr.fvarsL]
                · exact Or.inl hn
              · intro n hn
                simp only [lr.LExpr.fvarsL, List.mem_singleton] at hn
                subst hn
                exact Or.inl (lr_insertSeen_mem.mpr (Or.inl rfl))
              · intro n hn
                rcases lr_insertSeen_mem.mp hn with rfl | hn
                · exact Or.inr (lr_lookupFM_mem hf)
                · exact Or.inl hn
  | constant c =>
      intro seen e' seen' h
      simp only [lr.expr_to_qualifier, Option.some_inj] at h
      injection h with he hs
      subst he
      subst hs
      refine ⟨fun n hn => hn, fun n hn => Or.inl hn, ?_, fun n hn => Or.inl hn⟩
      intro n hn
      simp [lr.LExpr.fvarsL] at hn
  | binaryOp op e1 e2 ih1 ih2 =>
      intro seen e' seen' h
      simp only [lr.expr_to_qualifier] at h
      cases h1 : lr.expr_to_qualifier cx bound e1 seen with
      | none => rw [h1] at h; exact absurd h (by simp)
      | some r1 =>
          obtain ⟨e1', seen1⟩ := r1
          rw [h1] at h
          simp only [Option.some_bind] at h
          cases h2 : lr.expr_to_qualifier cx bound e2 seen1 with
          | none => rw [h2] at h; exact absurd h (by simp)
          | some r2 =>
              obtain ⟨e2', seen2⟩ := r2
              rw [h2] at h
              simp only [Option.some_bind, Option.some_inj] at h
              injection h with he hs
              subst he
              subst hs
              obtain ⟨m1, i1, f1, r1⟩ := ih1 seen e1' seen1 h1
              obtain ⟨m2, i2, f2, r2⟩ := ih2 seen1 e2' seen2 h2
              refine ⟨fun n hn => m2 n (m1 n hn), ?_, ?_, ?_⟩
              · intro n hn
                rcases i2 n hn with hn1 | hn2
                · rcases i1 n hn1 with hn0 | hnf
                  · exact Or.inl hn0
                  · right
                    simp [lr.LExpr.fvarsL, hnf]
                · right
                  simp [lr.LExpr.fvarsL, hn2]
              · intro n hn
                simp only [lr.LExpr.fvarsL, List.mem_append] at hn
                rcases hn with hn | hn
                · rcases f1 n hn with hn1 | hb
                  · exact Or.inl (m2 n hn1)
                  · exact Or.inr hb
                · exact f2 n hn
              · intro n hn
                rcases r2 n hn with hn1 | hr
                · rcases r1 n hn1 with hn0 | hr
                  · exact Or.inl hn0
                  · exact Or.inr hr
                · exact Or.inr hr
  | other k =>
      intro seen e' seen' h
      simp [lr.expr_to_qualifier] at h

theorem lr_relevant_names_mem {cx : lr.TCtx} {seen : List lr.LName} {n : lr.LName}
    (h : n ∈ (lr.relevant_params cx seen).map Prod.fst) : n ∈ seen := by
  obtain ⟨pr, hpr, rfl⟩ := List.mem_map.mp h
  obtain ⟨p, hp, hg⟩ := List.mem_filterMap.mp hpr
  by_cases hc : p.name ∈ seen
  · rw [if_pos hc] at hg
    cases hg
    exact hc
  · rw [if_neg hc] at hg
    cases hg

theorem lr_relevant_names_complete {cx : lr.TCtx} {seen : List lr.LName} {n : lr.LName}
    (h1 : n ∈ seen) (h2 : n ∈ cx.params.map lr.Param.name) :
    n ∈ (lr.relevant_params cx seen).map Prod.fst := by
  obtain ⟨p, hp, rfl⟩ := List.mem_map.mp h2
  refine List.mem_map.mpr ⟨(p.name, p.sort), ?_, rfl⟩
  exact List.mem_filterMap.mpr ⟨p, hp, by rw [if_pos h1]⟩

theorem lr_newAux_ran (ps : List lr.Param) (g : Nat) :
    (lr.newAux ps g).1.map Prod.snd = (lr.newAux ps g).2.1.map lr.Param.name := by
  induction ps generalizing g with
  | nil => rfl
  | cons p ps ih => simp [lr.newAux, ih ps.length.succ, ih (g + 1)]

theorem lr_newAux_gen (ps : List lr.Param) (g : Nat) :
    (lr.newAux ps g).2.2 = g + ps.length := by
  induction ps generalizing g with
  | nil => simp [lr.newAux]
  | cons p ps ih => simp [lr.newAux, ih (g + 1)]; omega

theorem lr_ty_to_qualifier_gen_le {cx : lr.TCtx} {bound : List lr.LName} {gen : Nat}
    {t : lr.LTy} {q? : Option lr.Qualifier} {gen' : Nat}
    (h : lr.ty_to_qualifier cx bound gen t = some (q?, gen')) : gen ≤ gen' := by
  cases t with
  | refine bty exprs =>
      simp only [lr.ty_to_qualifier, Option.some_inj] at h
      injection h with _ hg
      omega
  | exists_ bty pred =>
      cases pred with
      | infer k =>
          simp only [lr.ty_to_qualifier, Option.some_inj] at h
          injection h with _ hg
          omega
      | expr e =>
          simp only [lr.ty_to_qualifier] at h
          cases h1 : lr.expr_to_qualifier cx (bound ++ [gen]) e [] with
          | none => rw [h1] at h; exact absurd h (by simp)
          | some r =>
              rw [h1] at h
              simp only [Option.some_bind] at h
              cases hs : lr.basety_to_sort bty with
              | none => rw [hs] at h; exact absurd h (by simp)
              | some s =>
                  rw [hs] at h
                  simp only [Option.map_some', Option.some_inj] at h
                  injection h with _ hg
                  omega
  | other k =>
      simp only [lr.ty_to_qualifier, Option.some_inj] at h
      injection h with _ hg
      omega

theorem lr_constr_gen_le {cx : lr.TCtx} {gen : Nat} {c : lr.Constr}
    {q? : Option lr.Qualifier} {gen' : Nat}
    (h : lr.constr_to_qualifer cx gen c = some (q?, gen')) : gen ≤ gen' := by
  cases c with
  | type p t => exact lr_ty_to_qualifier_gen_le h
  | pred e =>
      simp only [lr.constr_to_qualifer] at h
      cases h1 : lr.expr_to_qualifier cx [] e [] with
      | none => rw [h1] at h; exact absurd h (by simp)
      | some r =>
          rw [h1] at h
          simp only [Option.map_some', Option.some_inj] at h
          injection h with _ hg
          omega

theorem lr_ty_to_qualifier_qok {cx : lr.TCtx} {gen plen : Nat} {t : lr.LTy}
    {q : lr.Qualifier} {gen' : Nat}
    (hran : cx.free_map.map Prod.snd = cx.params.map lr.Param.name)
    (hgen : plen ≤ gen)
    (h : lr.ty_to_qualifier cx [] gen t = some (some q, gen')) : lr.QOk plen q := by
  cases t with
  | refine bty exprs =>
      simp only [lr.ty_to_qualifier, Option.some_inj] at h
      injection h with hq _
      cases hq
  | other k =>
      simp only [lr.ty_to_qualifier, Option.some_inj] at h
      injection h with hq _
      cases hq
  | exists_ bty pred =>
      cases pred with
      | infer k =>
          simp only [lr.ty_to_qualifier, Option.some_inj] at h
          injection h with hq _
          cases hq
      | expr e =>
          simp only [lr.ty_to_qualifier] at h
          cases h1 : lr.expr_to_qualifier cx ([] ++ [gen]) e [] with
          | none => rw [h1] at h; exact absurd h (by simp)
          | some r =>
              rw [h1] at h
              simp only [Option.some_bind] at h
              cases hs : lr.basety_to_sort bty with
              | none => rw [hs] at h; exact absurd h (by simp)
              | some s =>
                  rw [hs] at h
                  simp only [Option.map_some', Option.some_inj] at h
                  injection h with hq _
                  injection hq with hq
                  subst hq
                  obtain ⟨e', seen⟩ := r
                  obtain ⟨-, hseen, hfv, hret⟩ :=
                    lr_expr_to_qualifier_inv cx ([] ++ [gen]) e [] e' seen h1
                  constructor
                  · intro n hn hlt
                    have hn' : n ∈ (lr.relevant_params cx seen).map Prod.fst ∨ n = gen := by
                      simpa using hn
                    rcases hn' with hn' | rfl
                    · rcases hseen n (lr_relevant_names_mem hn') with hc | hc
                      · simp at hc
                      · exact hc
                    · exact absurd hlt (Nat.not_lt.mpr hgen)
                  · intro n hn
                    have hmem : n ∈ (lr.relevant_params cx seen).map Prod.fst ∨ n = gen := by
                      rcases hfv n hn with hc | hc
                      · rcases hret n hc with hc' | hc'
                        · simp at hc'
                        · exact Or.inl (lr_relevant_names_complete hc
                            (by rw [← hran]; exact hc'))
                      · right
                        simpa using hc
                    simpa using hmem

theorem lr_constr_to_qualifer_qok {cx : lr.TCtx} {gen plen : Nat} {c : lr.Constr}
    {q : lr.Qualifier} {gen' : Nat}
    (hran : cx.free_map.map Prod.snd = cx.params.map lr.Param.name)
    (hgen : plen ≤ gen)
    (h : lr.constr_to_qualifer cx gen c = some (some q, gen')) : lr.QOk plen q := by
  cases c with
  | type p t => exact lr_ty_to_qualifier_qok hran hgen h
  | pred e =>
      simp only [lr.constr_to_qualifer] at h
      cases h1 : lr.expr_to_qualifier cx [] e [] with
      | none => rw [h1] at h; exact absurd h (by simp)
      | some r =>
          rw [h1] at h
          simp only [Option.map_some', Option.some_inj] at h
          injection h with hq _
          injection hq with hq
          subst hq
          obtain ⟨e', seen⟩ := r
          obtain ⟨-, hseen, hfv, hret⟩ := lr_expr_to_qualifier_inv cx [] e [] e' seen h1
          constructor
          · intro n hn hlt
            rcases hseen n (lr_relevant_names_mem hn) with hc | hc
            · simp at hc
            · exact hc
          · intro n hn
            rcases hfv n hn with hc | hc
            · refine lr_relevant_names_complete hc ?_
              rcases hret n hc with hc' | hc'
              · simp at hc'
              · rw [← hran]
                exact hc'
            · simp at hc

theorem lr_process_tys_qok {cx : lr.TCtx} (plen : Nat)
    (hran : cx.free_map.map Prod.snd = cx.params.map lr.Param.name) :
    ∀ (ts : List lr.LTy) (gen : Nat) (qs : List lr.Qualifier) (gen' : Nat),
      plen ≤ gen → lr.process_tys cx ts gen = some (qs, gen') →
      (∀ q ∈ qs, lr.QOk plen q) ∧ plen ≤ gen' := by
  intro ts
  induction ts with
  | nil =>
      intro gen qs gen' hgen h
      simp only [lr.process_tys, Option.some_inj] at h
      cases h
      exact ⟨by simp, hgen⟩
  | cons t ts ih =>
      intro gen qs gen' hgen h
      simp only [lr.process_tys] at h
      cases h1 : lr.ty_to_qualifier cx [] gen t with
      | none => rw [h1] at h; exact absurd h (by simp)
      | some r =>
          obtain ⟨q1, gen1⟩ := r
          rw [h1] at h
          simp only [Option.some_bind] at h
          cases h2 : lr.process_tys cx ts gen1 with
          | none => rw [h2] at h; exact absurd h (by simp)
          | some r2 =>
              obtain ⟨qs2, gen2⟩ := r2
              rw [h2] at h
              simp only [Option.map_some', Option.some_inj] at h
              injection h with hql hgl
              have hle : gen ≤ gen1 := lr_ty_to_qualifier_gen_le h1
              obtain ⟨hqs, hgen'⟩ := ih gen1 qs2 gen2 (by omega) h2
              refine ⟨?_, hgl ▸ hgen'⟩
              intro q hq
              rw [← hql] at hq
              rcases List.mem_append.mp hq with hq | hq
              · cases hr : q1 with
                | none => rw [hr] at hq; simp [Option.toList] at hq
                | some q0 =>
                    rw [hr] at hq
                    simp only [Option.toList, List.mem_singleton] at hq
                    subst hq
                    rw [hr] at h1
                    exact lr_ty_to_qualifier_qok hran hgen h1
              · exact hqs q hq

theorem lr_process_constrs_qok {cx : lr.TCtx} (plen : Nat)
    (hran : cx.free_map.map Prod.snd = cx.params.map lr.Param.name) :
    ∀ (cs : List lr.Constr) (gen : Nat) (qs : List lr.Qualifier) (gen' : Nat),
      plen ≤ gen → lr.process_constrs cx cs gen = some (qs, gen') →
      (∀ q ∈ qs, lr.QOk plen q) ∧ plen ≤ gen' := by
  intro cs
  induction cs with
  | nil =>
      intro gen qs gen' hgen h
      simp only [lr.process_constrs, Option.some_inj] at h
      cases h
      exact ⟨by simp, hgen⟩
  | cons c cs ih =>
      intro gen qs gen' hgen h
      simp only [lr.process_constrs] at h
      cases h1 : lr.constr_to_qualifer cx gen c with
      | none => rw [h1] at h; exact absurd h (by simp)
      | some r =>
          obtain ⟨q1, gen1⟩ := r
          rw [h1] at h
          simp only [Option.some_bind] at h
          cases h2 : lr.process_constrs cx cs gen1 with
          | none => rw [h2] at h; exact absurd h (by simp)
          | some r2 =>
              obtain ⟨qs2, gen2⟩ := r2
              rw [h2] at h
              simp only [Option.map_some', Option.some_inj] at h
              injection h with hql hgl
              have hle : gen ≤ gen1 := lr_constr_gen_le h1
              obtain ⟨hqs, hgen'⟩ := ih gen1 qs2 gen2 (by omega) h2
              refine ⟨?_, hgl ▸ hgen'⟩
              intro q hq
              rw [← hql] at hq
              rcases List.mem_append.mp hq with hq | hq
              · cases hr : q1 with
                | none => rw [hr] at hq; simp [Option.toList] at hq
                | some q0 =>
                    rw [hr] at hq
                    simp only [Option.toList, List.mem_singleton] at hq
                    subst hq
                    rw [hr] at h1
                    exact lr_constr_to_qualifer_qok hran hgen h1
              · exact hqs q hq

/-- C10: every qualifier generated automatically from a function signature
uses only names from the fresh pool that is private to that signature's
transformation (its free variables are all renamed), and its parameter list
contains only those renamed ambient parameters that actually occur in the
qualifier's predicate expression, plus — for an existential type — the
freshly named bound value variable: a renamed ambient parameter (a fresh
name below the number of ambient parameters) that is listed occurs in the
predicate, an ambient parameter that does not occur in the predicate is
dropped from the list, and every free variable of the predicate is listed. -/
theorem C10_generated_qualifier_params (fn_sig : lr.LFnSig) (params : List lr.Param)
    (qs : List lr.Qualifier) (h : lr.qualifiers_from_fn_sig fn_sig params = some qs)
    (q : lr.Qualifier) (hq : q ∈ qs) :
    (∀ n ∈ q.args.map Prod.fst, n < params.length → n ∈ q.expr.fvarsL)
    ∧ (∀ n ∈ q.expr.fvarsL, n ∈ q.args.map Prod.fst) := by
  simp only [lr.qualifiers_from_fn_sig, lr.Transformer.new] at h
  have hran : (lr.newAux params 0).1.map Prod.snd =
      (lr.newAux params 0).2.1.map lr.Param.name := lr_newAux_ran params 0
  have hgen0 : (lr.newAux params 0).2.2 = params.length := by
    rw [lr_newAux_gen]
    omega
  cases ha : lr.process_tys ⟨(lr.newAux params 0).1, (lr.newAux params 0).2.1⟩
      fn_sig.args (lr.newAux params 0).2.2 with
  | none => rw [ha] at h; exact absurd h (by simp)
  | some a =>
      obtain ⟨qsa, gena⟩ := a
      rw [ha] at h
      simp only [Option.some_bind] at h
      cases hb : lr.process_constrs ⟨(lr.newAux params 0).1, (lr.newAux params 0).2.1⟩
          fn_sig.requires gena with
      | none => rw [hb] at h; exact absurd h (by simp)
      | some b =>
          obtain ⟨qsb, genb⟩ := b
          rw [hb] at h
          simp only [Option.some_bind] at h
          cases hc : lr.process_constrs ⟨(lr.newAux params 0).1, (lr.newAux params 0).2.1⟩
              fn_sig.ensures genb with
          | none => rw [hc] at h; exact absurd h (by simp)
          | some c =>
              obtain ⟨qsc, genc⟩ := c
              rw [hc] at h
              simp only [Option.some_bind] at h
              cases hd : lr.ty_to_qualifier ⟨(lr.newAux params 0).1, (lr.newAux params 0).2.1⟩
                  [] genc fn_sig.ret with
              | none => rw [hd] at h; exact absurd h (by simp)
              | some d =>
                  obtain ⟨qd, gend⟩ := d
                  rw [hd] at h
                  simp only [Option.map_some', Option.some_inj] at h
                  subst h
                  rw [hgen0] at ha
                  obtain ⟨hqa, hga⟩ := lr_process_tys_qok params.length hran fn_sig.args
                    params.length qsa gena (Nat.le_refl _) ha
                  obtain ⟨hqb, hgb⟩ := lr_process_constrs_qok params.length hran
                    fn_sig.requires gena qsb genb hga hb
                  obtain ⟨hqc, hgc⟩ := lr_process_constrs_qok params.length hran
                    fn_sig.ensures genb qsc genc hgb hc
                  rcases List.mem_append.mp hq with hq' | hqd
                  · rcases List.mem_append.mp hq' with hq'' | hq3
                    · rcases List.mem_append.mp hq'' with hq1 | hq2
                      · exact hqa q hq1
                      · exact hqb q hq2
                    · exact hqc q hq3
                  · cases hr : qd with
                    | none => rw [hr] at hqd; simp [Option.toList] at hqd
                    | some q0 =>
                        rw [hr] at hqd
                        simp only [Option.toList, List.mem_singleton] at hqd
                        subst hqd
                        rw [hr] at hd
                        exact lr_ty_to_qualifier_qok hran hgc hd

/-- C10 (witness): for the signature with ambient parameters `a5, a9 : int`
and one argument type `∃ v : int{32}. a9 op v`, generation produces exactly
one qualifier, over the renamed parameter `1` (the renaming of `a9`; the
unused `a5`, renamed `0`, is dropped) and the freshly named bound variable
`2`, and that qualifier satisfies the claim's properties. -/
theorem C10_witness :
    lr.qualifiers_from_fn_sig
        ⟨[], [lr.LTy.exists_ (.int 32)
            (.expr (.binaryOp 0 (.var (.free 9)) (.var (.bound 0))))], .other 0, []⟩
        [⟨5, .int⟩, ⟨9, .int⟩] =
      some [⟨"Test", [(1, .int), (2, .int)],
        .binaryOp 0 (.var (.free 1)) (.var (.free 2))⟩]
    ∧ ((∀ n ∈ (lr.Qualifier.mk "Test" [(1, .int), (2, .int)]
          (.binaryOp 0 (.var (.free 1)) (.var (.free 2)))).args.map Prod.fst,
        n < 2 →
          n ∈ (lr.Qualifier.mk "Test" [(1, .int), (2, .int)]
            (.binaryOp 0 (.var (.free 1)) (.var (.free 2)))).expr.fvarsL)
      ∧ (∀ n ∈ (lr.Qualifier.mk "Test" [(1, .int), (2, .int)]
          (.binaryOp 0 (.var (.free 1)) (.var (.free 2)))).expr.fvarsL,
          n ∈ (lr.Qualifier.mk "Test" [(1, .int), (2, .int)]
            (.binaryOp 0 (.var (.free 1)) (.var (.free 2)))).args.map Prod.fst)) := by
  have hEval : lr.qualifiers_from_fn_sig
      ⟨[], [lr.LTy.exists_ (.int 32)
          (.expr (.binaryOp 0 (.var (.free 9)) (.var (.bound 0))))], .other 0, []⟩
      [⟨5, .int⟩, ⟨9, .int⟩] =
      some [⟨"Test", [(1, .int), (2, .int)],
        .binaryOp 0 (.var (.free 1)) (.var (.free 2))⟩] := by
    decide
  exact ⟨hEval,
    C10_generated_qualifier_params
      ⟨[], [lr.LTy.exists_ (.int 32)
          (.expr (.binaryOp 0 (.var (.free 9)) (.var (.bound 0))))], .other 0, []⟩
      [⟨5, .int⟩, ⟨9, .int⟩]
      [⟨"Test", [(1, .int), (2, .int)], .binaryOp 0 (.var (.free 1)) (.var (.free 2))⟩]
      hEval
      ⟨"Test", [(1, .int), (2, .int)], .binaryOp 0 (.var (.free 1)) (.var (.free 2))⟩
      (by simp)⟩

theorem ty_to_path_go_foldl (l : List Nat) (root : ty.Expr) (acc : List Nat) :
    ty.Expr.to_path_go (l.foldl (fun e f => ty.Expr.pathProj e f) root) acc =
      ty.Expr.to_path_go root (l ++ acc) := by
  induction l generalizing root acc with
  | nil => rfl
  | cons f l ih => simpa [List.foldl] using ih (ty.Expr.pathProj root f) acc

theorem ty_loc_to_path_go (loc : ty.Loc) (acc : List Nat) :
    ty.Expr.to_path_go loc.to_expr acc = some ⟨loc, acc⟩ := by
  cases loc <;> rfl

theorem ty_path_roundtrip (p : ty.Path) : p.to_expr.to_path = some p := by
  unfold ty.Path.to_expr ty.Expr.to_path
  rw [ty_to_path_go_foldl, List.append_nil, ty_loc_to_path_go]

mutual
theorem ty_expr_fold_id (F : ty.Folder) (e : ty.Expr) : e.fold_with F = e := by
  cases e with
  | binaryOp op e1 e2 =>
      simp [ty.Expr.fold_with, ty_expr_fold_id F e1, ty_expr_fold_id F e2]
  | unaryOp op e => simp [ty.Expr.fold_with, ty_expr_fold_id F e]
  | tupleProj e i => simp [ty.Expr.fold_with, ty_expr_fold_id F e]
  | tuple es => simp [ty.Expr.fold_with, ty_exprlist_fold_id F es]
  | pathProj e f => simp [ty.Expr.fold_with, ty_expr_fold_id F e]
  | _ => rfl

theorem ty_exprlist_fold_id (F : ty.Folder) (es : ty.ExprList) : es.fold_with F = es := by
  cases es with
  | nil => rfl
  | cons e tl =>
      simp [ty.ExprList.fold_with, ty_expr_fold_id F e, ty_exprlist_fold_id F tl]
end

theorem ty_kvar_fold_id (F : ty.Folder) (k : ty.KVar) : k.fold_with F = k := by
  simp [ty.KVar.fold_with, ty_exprlist_fold_id]

theorem ty_pred_fold_id (F : ty.Folder) (p : ty.Pred) : p.fold_with F = p := by
  cases p <;> simp [ty.Pred.fold_with, ty_kvar_fold_id, ty_expr_fold_id]

theorem ty_binders_fold_id (F : ty.Folder) (b : ty.Binders) : b.fold_with F = b := by
  simp [ty.Binders.fold_with, ty_pred_fold_id]

theorem ty_index_fold_id (F : ty.Folder) (i : ty.Index) : i.fold_with F = i := by
  simp [ty.Index.fold_with, ty_expr_fold_id]

theorem ty_fold_with_default_eq (t : ty.Ty) :
    ty.Ty.fold_with .defaultFolder t = ty.Ty.super_fold .defaultFolder t := by
  cases t <;> simp [ty.Ty.fold_with]

mutual
theorem ty_ty_default_fold_id (t : ty.Ty) :
    ty.Ty.fold_with .defaultFolder t = some t := by
  rw [ty_fold_with_default_eq]
  cases t with
  | indexed bty indices =>
      simp [ty.Ty.super_fold, ty_basety_default_fold_id bty,
        List.map_congr_left (fun i _ => ty_index_fold_id .defaultFolder i)]
  | exists_ bty pred =>
      simp [ty.Ty.super_fold, ty_basety_default_fold_id bty, ty_binders_fold_id]
  | tuple tys => simp [ty.Ty.super_fold, ty_tylist_default_fold_id tys]
  | ptr path => simp [ty.Ty.super_fold, ty_expr_fold_id, ty_path_roundtrip]
  | boxPtr loc alloc =>
      simp [ty.Ty.super_fold, ty_expr_fold_id, ty.Expr.to_name,
        ty_ty_default_fold_id alloc]
  | ref rk t => simp [ty.Ty.super_fold, ty_ty_default_fold_id t]
  | constr pred t =>
      simp [ty.Ty.super_fold, ty_pred_fold_id, ty_ty_default_fold_id t]
  | _ => simp [ty.Ty.super_fold]

theorem ty_basety_default_fold_id (b : ty.BaseTy) :
    ty.BaseTy.super_fold .defaultFolder b = some b := by
  cases b with
  | adt d substs => simp [ty.BaseTy.super_fold, ty_tylist_default_fold_id substs]
  | _ => simp [ty.BaseTy.super_fold]

theorem ty_tylist_default_fold_id (ts : ty.TyList) :
    ty.TyList.fold_with .defaultFolder ts = some ts := by
  cases ts with
  | nil => simp [ty.TyList.fold_with]
  | cons t tl =>
      simp [ty.TyList.fold_with, ty_ty_default_fold_id t, ty_tylist_default_fold_id tl]
end

theorem ty_constraint_default_fold_id (c : ty.Constraint) :
    ty.Constraint.fold_with .defaultFolder c = some c := by
  cases c with
  | type path t =>
      simp [ty.Constraint.fold_with, ty_expr_fold_id, ty_path_roundtrip,
        ty_ty_default_fold_id]
  | pred e => simp [ty.Constraint.fold_with, ty_expr_fold_id]

theorem ty_mapFold_some_id {α : Type} {f : α → Option α} {l : List α}
    (h : ∀ x ∈ l, f x = some x) : ty.mapFold f l = some l := by
  induction l with
  | nil => rfl
  | cons x l ih =>
      simp [ty.mapFold, h x (by simp), ih (fun y hy => h y (by simp [hy]))]

theorem ty_fnsig_default_fold_id (s : ty.FnSig) :
    ty.FnSig.fold_with .defaultFolder s = some s := by
  unfold ty.FnSig.fold_with
  rw [ty_mapFold_some_id (fun c _ => ty_constraint_default_fold_id c),
    ty_mapFold_some_id (fun t _ => ty_ty_default_fold_id t),
    ty_mapFold_some_id (fun c _ => ty_constraint_default_fold_id c),
    ty_ty_default_fold_id]
  rfl

mutual
theorem ty_ty_withHoles_spec (t : ty.Ty) :
    ty.Ty.fold_with .withHoles t = some (ty.Ty.addHolesSpec t) := by
  cases t with
  | indexed bty indices =>
      simp [ty.Ty.fold_with, ty_basety_withHoles_spec bty, ty.Ty.addHolesSpec]
  | exists_ bty pred =>
      simp [ty.Ty.fold_with, ty_basety_withHoles_spec bty, ty.Ty.addHolesSpec]
  | tuple tys =>
      rw [show ty.Ty.fold_with .withHoles (ty.Ty.tuple tys) =
        ty.Ty.super_fold .withHoles (ty.Ty.tuple tys) from by simp [ty.Ty.fold_with]]
      simp [ty.Ty.super_fold, ty_tylist_withHoles_spec tys, ty.Ty.addHolesSpec]
  | ptr path =>
      rw [show ty.Ty.fold_with .withHoles (ty.Ty.ptr path) =
        ty.Ty.super_fold .withHoles (ty.Ty.ptr path) from by simp [ty.Ty.fold_with]]
      simp [ty.Ty.super_fold, ty_expr_fold_id, ty_path_roundtrip, ty.Ty.addHolesSpec]
  | boxPtr loc alloc =>
      rw [show ty.Ty.fold_with .withHoles (ty.Ty.boxPtr loc alloc) =
        ty.Ty.super_fold .withHoles (ty.Ty.boxPtr loc alloc) from by simp [ty.Ty.fold_with]]
      simp [ty.Ty.super_fold, ty_expr_fold_id, ty.Expr.to_name,
        ty_ty_withHoles_spec alloc, ty.Ty.addHolesSpec]
  | ref rk t =>
      rw [show ty.Ty.fold_with .withHoles (ty.Ty.ref rk t) =
        ty.Ty.super_fold .withHoles (ty.Ty.ref rk t) from by simp [ty.Ty.fold_with]]
      simp [ty.Ty.super_fold, ty_ty_withHoles_spec t, ty.Ty.addHolesSpec]
  | constr pred t =>
      rw [show ty.Ty.fold_with .withHoles (ty.Ty.constr pred t) =
        ty.Ty.super_fold .withHoles (ty.Ty.constr pred t) from by simp [ty.Ty.fold_with]]
      simp [ty.Ty.super_fold, ty_pred_fold_id, ty_ty_withHoles_spec t, ty.Ty.addHolesSpec]
  | float fty => simp [ty.Ty.fold_with, ty.Ty.super_fold, ty.Ty.addHolesSpec]
  | uninit => simp [ty.Ty.fold_with, ty.Ty.super_fold, ty.Ty.addHolesSpec]
  | param i => simp [ty.Ty.fold_with, ty.Ty.super_fold, ty.Ty.addHolesSpec]
  | never => simp [ty.Ty.fold_with, ty.Ty.super_fold, ty.Ty.addHolesSpec]
  | discr a p => simp [ty.Ty.fold_with, ty.Ty.super_fold, ty.Ty.addHolesSpec]

theorem ty_basety_withHoles_spec (b : ty.BaseTy) :
    ty.BaseTy.super_fold .withHoles b = some (ty.BaseTy.addHolesSpec b) := by
  cases b with
  | adt d substs =>
      simp [ty.BaseTy.super_fold, ty_tylist_withHoles_spec substs, ty.BaseTy.addHolesSpec]
  | _ => simp [ty.BaseTy.super_fold, ty.BaseTy.addHolesSpec]

theorem ty_tylist_withHoles_spec (ts : ty.TyList) :
    ty.TyList.fold_with .withHoles ts = some (ty.TyList.addHolesSpec ts) := by
  cases ts with
  | nil => simp [ty.TyList.fold_with, ty.TyList.addHolesSpec]
  | cons t tl =>
      simp [ty.TyList.fold_with, ty_ty_withHoles_spec t, ty_tylist_withHoles_spec tl,
        ty.TyList.addHolesSpec]
end

/-- C8: running a folder that overrides no hook (the default structural
recursion folder) over any term — expression, type, predicate, k-variable
application, constraint or signature — returns a term equal to the input
(`some` marking in addition that no fold panic occurs). -/
theorem C8_default_folder_identity :
    (∀ e : ty.Expr, e.fold_with .defaultFolder = e)
    ∧ (∀ t : ty.Ty, ty.Ty.fold_with .defaultFolder t = some t)
    ∧ (∀ p : ty.Pred, p.fold_with .defaultFolder = p)
    ∧ (∀ k : ty.KVar, k.fold_with .defaultFolder = k)
    ∧ (∀ c : ty.Constraint, c.fold_with .defaultFolder = some c)
    ∧ (∀ s : ty.FnSig, s.fold_with .defaultFolder = some s) :=
  ⟨ty_expr_fold_id .defaultFolder, ty_ty_default_fold_id, ty_pred_fold_id .defaultFolder,
    ty_kvar_fold_id .defaultFolder, ty_constraint_default_fold_id, ty_fnsig_default_fold_id⟩

/-- C6: `with_holes`, applied to any type, converts every concretely-indexed
type and every already-refined (existential) type occurring in it into an
existential type whose refinement is a hole, discarding the previous index
expressions or refinement predicate, and leaves the structure of all other
type constructors unchanged apart from recursing into their children —
exactly the recursive description `Ty.addHolesSpec`. -/
theorem C6_with_holes_spec (t : ty.Ty) :
    t.with_holes = some (ty.Ty.addHolesSpec t) :=
  ty_ty_withHoles_spec t

theorem ty_fvars_foldl_pathProj (l : List Nat) (root : ty.Expr) :
    (l.foldl (fun e f => ty.Expr.pathProj e f) root).fvars = root.fvars := by
  induction l generalizing root with
  | nil => rfl
  | cons f l ih => simpa [List.foldl] using ih (ty.Expr.pathProj root f)

theorem ty_path_to_expr_fvars (p : ty.Path) :
    p.to_expr.fvars = p.specOcc := by
  unfold ty.Path.to_expr
  rw [ty_fvars_foldl_pathProj]
  cases h : p.loc <;> simp [ty.Loc.to_expr, ty.Expr.fvars, ty.Path.specOcc, h]

mutual
theorem ty_expr_fvars_spec (e : ty.Expr) : e.fvars = ty.Expr.specOcc false e := by
  cases e with
  | binaryOp op e1 e2 =>
      simp [ty.Expr.fvars, ty.Expr.specOcc, ty_expr_fvars_spec e1, ty_expr_fvars_spec e2]
  | unaryOp op e => simp [ty.Expr.fvars, ty.Expr.specOcc, ty_expr_fvars_spec e]
  | tupleProj e i => simp [ty.Expr.fvars, ty.Expr.specOcc, ty_expr_fvars_spec e]
  | tuple es => simp [ty.Expr.fvars, ty.Expr.specOcc, ty_exprlist_fvars_spec es]
  | pathProj e f => simp [ty.Expr.fvars, ty.Expr.specOcc, ty_expr_fvars_spec e]
  | _ => rfl

theorem ty_exprlist_fvars_spec (es : ty.ExprList) :
    es.fvars = ty.ExprList.specOcc false es := by
  cases es with
  | nil => rfl
  | cons e tl =>
      simp [ty.ExprList.fvars, ty.ExprList.specOcc, ty_expr_fvars_spec e,
        ty_exprlist_fvars_spec tl]
end

theorem ty_kvar_fvars_spec (k : ty.KVar) : k.fvars = ty.KVar.specOcc false k := by
  simp [ty.KVar.fvars, ty.KVar.specOcc, ty_exprlist_fvars_spec]

theorem ty_pred_fvars_spec (p : ty.Pred) : p.fvars = ty.Pred.specOcc false p := by
  cases p with
  | kvar k => simpa [ty.Pred.fvars, ty.Pred.specOcc] using ty_kvar_fvars_spec k
  | expr e => simpa [ty.Pred.fvars, ty.Pred.specOcc] using ty_expr_fvars_spec e
  | hole => rfl

mutual
theorem ty_basety_fvars_spec (bty : ty.BaseTy) :
    bty.fvars = ty.BaseTy.specOcc false bty := by
  cases bty with
  | adt d substs =>
      simpa [ty.BaseTy.fvars, ty.BaseTy.specOcc] using ty_tylist_fvars_spec substs
  | _ => rfl

theorem ty_ty_fvars_spec (t : ty.Ty) : t.fvars = ty.Ty.specOcc false t := by
  cases t with
  | indexed bty indices =>
      simp only [ty.Ty.fvars, ty.Ty.specOcc, ty_basety_fvars_spec bty]
      congr 1
      exact congrArg List.flatten
        (List.map_congr_left (fun i _ => by simp [ty.Index.fvars, ty_expr_fvars_spec]))
  | exists_ bty pred =>
      simp [ty.Ty.fvars, ty.Ty.specOcc, ty_basety_fvars_spec bty, ty.Binders.fvars,
        ty_pred_fvars_spec]
  | tuple tys => simpa [ty.Ty.fvars, ty.Ty.specOcc] using ty_tylist_fvars_spec tys
  | ref rk t => simpa [ty.Ty.fvars, ty.Ty.specOcc] using ty_ty_fvars_spec t
  | ptr path => simpa [ty.Ty.fvars, ty.Ty.specOcc] using ty_path_to_expr_fvars path
  | boxPtr loc t =>
      simp [ty.Ty.fvars, ty.Ty.specOcc, ty.Expr.fvars, ty_ty_fvars_spec t]
  | constr pred t =>
      simp [ty.Ty.fvars, ty.Ty.specOcc, ty_pred_fvars_spec pred, ty_ty_fvars_spec t]
  | _ => rfl

theorem ty_tylist_fvars_spec (tys : ty.TyList) :
    tys.fvars = ty.TyList.specOcc false tys := by
  cases tys with
  | nil => rfl
  | cons t tl =>
      simp [ty.TyList.fvars, ty.TyList.specOcc, ty_ty_fvars_spec t,
        ty_tylist_fvars_spec tl]
end

theorem ty_constraint_fvars_spec (c : ty.Constraint) :
    c.fvars = ty.Constraint.specOcc false c := by
  cases c with
  | type path t =>
      simp [ty.Constraint.fvars, ty.Constraint.specOcc, ty_path_to_expr_fvars,
        ty_ty_fvars_spec]
  | pred e => simpa [ty.Constraint.fvars, ty.Constraint.specOcc] using ty_expr_fvars_spec e

theorem ty_fnsig_fvars_spec (s : ty.FnSig) : s.fvars = ty.FnSig.specOcc false s := by
  simp [ty.FnSig.fvars, ty.FnSig.specOcc, ty_constraint_fvars_spec, ty_ty_fvars_spec,
    funext ty_constraint_fvars_spec, funext ty_ty_fvars_spec]

/-- C1 (counterexample): the free-variable collection `fvars` does not return
every free-variable name occurring syntactically in a term.  For the
k-variable application `$k0([]; scope = [a7])`, the name `7` occurs in the
scope list, yet `fvars` (whose `KVar` visitor visits only the argument list)
does not return it. -/
theorem C1_counterexample :
    ¬ (7 ∈ (ty.KVar.mk 0 .nil (.cons (ty.Expr.fvar 7) .nil)).fvars ↔
        7 ∈ ty.KVar.specOcc true (ty.KVar.mk 0 .nil (.cons (ty.Expr.fvar 7) .nil))) := by
  decide

/-- C1 (amended): for every term (expression, type, predicate, k-variable
application, signature), `fvars` returns exactly the set of free-variable
names occurring syntactically in the term outside of k-variable scope lists:
occurrences in a k-variable's argument list count, occurrences in its scope
list do not, and no name without such an occurrence is returned. -/
theorem C1_fvars_exact_outside_kvar_scope :
    (∀ (e : ty.Expr) (n : ty.Name), n ∈ e.fvars ↔ n ∈ ty.Expr.specOcc false e)
    ∧ (∀ (t : ty.Ty) (n : ty.Name), n ∈ t.fvars ↔ n ∈ ty.Ty.specOcc false t)
    ∧ (∀ (p : ty.Pred) (n : ty.Name), n ∈ p.fvars ↔ n ∈ ty.Pred.specOcc false p)
    ∧ (∀ (k : ty.KVar) (n : ty.Name), n ∈ k.fvars ↔ n ∈ ty.KVar.specOcc false k)
    ∧ (∀ (s : ty.FnSig) (n : ty.Name), n ∈ s.fvars ↔ n ∈ ty.FnSig.specOcc false s) :=
  ⟨fun e n => by rw [ty_expr_fvars_spec], fun t n => by rw [ty_ty_fvars_spec],
    fun p n => by rw [ty_pred_fvars_spec], fun k n => by rw [ty_kvar_fvars_spec],
    fun s n => by rw [ty_fnsig_fvars_spec]⟩
